import Mathlib

/-!
Verification of the ADIF log-merge tool (src/log_merge.py).

The development shallowly embeds the program: byte streams are `List Nat`
(each element a byte value), Python `str` values are Lean `String`s
(sequences of Unicode scalar values, as in CPython), records are
insertion-ordered association lists mirroring Python dictionaries, and
fallible operations return `Option`.  Platform primitives used by the
program (the UTF-8 and GB18030 codecs, `datetime.strptime`) are modelled
from their documented CPython behaviour, which was checked against the
interpreter; each such model carries a doc comment stating its scope.
-/

namespace LogMerge

/-- Python `bytes.lower` on a single byte: ASCII `A`-`Z` map to `a`-`z`. -/
def lowerByte (b : Nat) : Nat := if 65 ≤ b ∧ b ≤ 90 then b + 32 else b

/-- ASCII uppercasing of a single byte, as `str.upper` acts on an ASCII string. -/
def upperByte (b : Nat) : Nat := if 97 ≤ b ∧ b ≤ 122 then b - 32 else b

/-- Python `bytes.lower` over a byte string. -/
def lowerBytes (l : List Nat) : List Nat := l.map lowerByte

/-- The bytes Python `bytes.strip` removes: ASCII whitespace. -/
def isSpaceByte (b : Nat) : Bool := b = 32 ∨ b = 9 ∨ b = 10 ∨ b = 13 ∨ b = 11 ∨ b = 12

/-- ASCII decimal digit test on a byte. -/
def isDigitByte (b : Nat) : Bool := 48 ≤ b ∧ b ≤ 57

/-- The byte string `<eor>` (record terminator, searched case-insensitively). -/
def eorBytes : List Nat := [60, 101, 111, 114, 62]

/-- The byte string `<eoh>` (header terminator, searched case-insensitively). -/
def eohBytes : List Nat := [60, 101, 111, 104, 62]

/-- Python `bytes.find`: index of the first occurrence of `pat` in `l`
(`none` when absent, where CPython returns `-1`). -/
def findSub (l pat : List Nat) : Option Nat :=
  if pat.isPrefixOf l then some 0
  else
    match l with
    | [] => none
    | _ :: t => (findSub t pat).map (· + 1)

/-- Whether `pat` occurs somewhere in `l`. -/
def hasSub (l pat : List Nat) : Bool := (findSub l pat).isSome

/-- A decoded record: tag name to value, in Python dict insertion order. -/
abbrev Record := List (String × String)

/-- Python dict assignment `d[k] = v`: update in place if the key exists
(keeping its position), otherwise append. -/
def dset (d : Record) (k v : String) : Record :=
  if d.any (fun p => p.1 = k) then d.map (fun p => if p.1 = k then (k, v) else p)
  else d ++ [(k, v)]

/-- Python `d.get(k)`. -/
def dget (d : Record) (k : String) : Option String :=
  (d.find? (fun p => p.1 = k)).map (fun p => p.2)

/-- Is `b` a UTF-8 continuation byte (`0x80`-`0xBF`)? -/
def isCont (b : Nat) : Bool := 128 ≤ b ∧ b ≤ 191

/-- Decode one UTF-8 scalar from the head of the byte string, as CPython's
strict `bytes.decode('utf-8')` does: rejects overlong forms, surrogates,
values above `0x10FFFF` and truncated sequences.  Returns the code point
and the remaining bytes. -/
def utf8Step : List Nat → Option (Nat × List Nat)
  | [] => none
  | b :: rest =>
    if b < 128 then some (b, rest)
    else if b < 194 then none
    else if b < 224 then
      match rest with
      | b2 :: rest2 =>
        if isCont b2 then some ((b - 192) * 64 + (b2 - 128), rest2) else none
      | [] => none
    else if b < 240 then
      match rest with
      | b2 :: b3 :: rest3 =>
        if isCont b2 ∧ isCont b3 then
          let cp := (b - 224) * 4096 + (b2 - 128) * 64 + (b3 - 128)
          if 2048 ≤ cp ∧ (cp < 55296 ∨ 57343 < cp) then some (cp, rest3) else none
        else none
      | _ => none
    else if b < 245 then
      match rest with
      | b2 :: b3 :: b4 :: rest4 =>
        if isCont b2 ∧ isCont b3 ∧ isCont b4 then
          let cp := (b - 240) * 262144 + (b2 - 128) * 4096 + (b3 - 128) * 64 + (b4 - 128)
          if 65536 ≤ cp ∧ cp ≤ 1114111 then some (cp, rest4) else none
        else none
      | _ => none
    else none

/-- Strict UTF-8 decoding of a whole byte string to code points.  The fuel
only makes the recursion structural: each step consumes at least one byte,
so `l.length` units always suffice. -/
def utf8DecLoop : Nat → List Nat → Option (List Nat)
  | 0, [] => some []
  | 0, _ :: _ => none
  | _ + 1, [] => some []
  | fuel + 1, b :: rest =>
    match utf8Step (b :: rest) with
    | none => none
    | some (cp, rest2) => (utf8DecLoop fuel rest2).map (fun cs => cp :: cs)

/-- CPython `bytes.decode('utf-8')` as an `Option`. -/
def utf8Dec (l : List Nat) : Option (List Nat) := utf8DecLoop l.length l

/-- Turn a list of scalar values into a `String` (values outside the valid
range fall back to `Char.ofNat`'s default). -/
def charsOf (cps : List Nat) : String := String.mk (cps.map Char.ofNat)

/-- CPython's `errors='replace'` UTF-8 decoding, modelled from the codec:
on an invalid sequence one `U+FFFD` is produced and the maximal valid
prefix of the bad sequence is skipped.  Every theorem below only ever
evaluates byte strings on which strict decoding succeeds, so only totality
of this fallback matters here. -/
def utf8ReplaceCps : List Nat → List Nat
  | [] => []
  | b :: rest =>
    if b < 128 then b :: utf8ReplaceCps rest
    else if b < 194 then 65533 :: utf8ReplaceCps rest
    else if b < 224 then
      match h2 : rest with
      | b2 :: rest2 =>
        if isCont b2 then ((b - 192) * 64 + (b2 - 128)) :: utf8ReplaceCps rest2
        else 65533 :: utf8ReplaceCps rest
      | [] => [65533]
    else if b < 240 then
      match h2 : rest with
      | b2 :: b3 :: rest3 =>
        if isCont b2 ∧ isCont b3 then
          let cp := (b - 224) * 4096 + (b2 - 128) * 64 + (b3 - 128)
          if 2048 ≤ cp ∧ (cp < 55296 ∨ 57343 < cp) then cp :: utf8ReplaceCps rest3
          else 65533 :: utf8ReplaceCps rest
        else 65533 :: utf8ReplaceCps rest
      | _ => 65533 :: utf8ReplaceCps rest.tail
    else if b < 245 then
      match h2 : rest with
      | b2 :: b3 :: b4 :: rest4 =>
        if isCont b2 ∧ isCont b3 ∧ isCont b4 then
          let cp := (b - 240) * 262144 + (b2 - 128) * 4096 + (b3 - 128) * 64 + (b4 - 128)
          if 65536 ≤ cp ∧ cp ≤ 1114111 then cp :: utf8ReplaceCps rest4
          else 65533 :: utf8ReplaceCps rest
        else 65533 :: utf8ReplaceCps rest
      | _ => 65533 :: utf8ReplaceCps rest.tail.tail
    else 65533 :: utf8ReplaceCps rest
termination_by l => l.length
decreasing_by all_goals simp_all [List.length_tail] <;> omega

/-- Table of non-ASCII code points whose GB18030 encodings this development
evaluates, checked against the CPython `gb18030` codec:
`U+9686` (the CJK character 隆) has the two-byte code `0xC2 0xA1`, and
`U+00E9` (é) has the two-byte code `0xA8 0xA6`. -/
def gbTable : List (Nat × List Nat) := [(38534, [194, 161]), (233, [168, 166])]

/-- GB18030 encoding of one character, modelled from the CPython codec:
exact on ASCII and on the code points of `gbTable`, which are the only
characters any theorem below evaluates the encoder at (the remaining
theorems about the encoder hold for every choice of byte image, and the
four-byte frame used for uncovered characters is never relied upon). -/
def gbEncChar (c : Char) : List Nat :=
  if c.toNat < 128 then [c.toNat]
  else
    match gbTable.find? (fun p => p.1 = c.toNat) with
    | some p => p.2
    | none =>
      let m := c.toNat
      [129 + m / 12600, 48 + (m / 1260) % 10, 129 + (m / 10) % 126, 48 + m % 10]

/-- Encode a string to bytes character by character, as text written to a
file opened with a fixed `encoding` is. -/
def encodeStr (s : String) : List Nat :=
  s.data.foldr (fun c acc => gbEncChar c ++ acc) []

/-- Strict GB18030 decoding, modelled from the CPython codec: the frame
structure (ASCII, two-byte `0x81`-`0xFE` lead, four-byte form) is exact;
the character produced for a two- or four-byte frame is looked up in
`gbTable` and otherwise falls back to `U+FFFD`.  No theorem below ever
evaluates this function on a byte string that reaches the fallback: it is
only reached by `decodeValue` on bytes that strict UTF-8 rejects, and all
such bytes in the development are tabulated. -/
def gbDec : List Nat → Option (List Nat)
  | [] => some []
  | b :: rest =>
    if b < 128 then (gbDec rest).map (fun cs => b :: cs)
    else if b < 129 then none
    else if 254 < b then none
    else
      match rest with
      | [] => none
      | b2 :: rest2 =>
        if (64 ≤ b2 ∧ b2 ≤ 126) ∨ (128 ≤ b2 ∧ b2 ≤ 254) then
          let cp := match gbTable.find? (fun p => p.2 = [b, b2]) with
            | some p => p.1
            | none => 65533
          (gbDec rest2).map (fun cs => cp :: cs)
        else if 48 ≤ b2 ∧ b2 ≤ 57 then
          match rest2 with
          | b3 :: b4 :: rest4 =>
            if (129 ≤ b3 ∧ b3 ≤ 254) ∧ (48 ≤ b4 ∧ b4 ≤ 57) then
              let cp := match gbTable.find? (fun p => p.2 = [b, b2, b3, b4]) with
                | some p => p.1
                | none => 65533
              (gbDec rest4).map (fun cs => cp :: cs)
            else none
          | _ => none
        else none

/-- The value-decoding policy of `AdifParser._parse_single_record`
(src/log_merge.py lines 82-90): try UTF-8, then GB18030, then UTF-8 with
replacement characters. -/
def decodeValue (bs : List Nat) : String :=
  match utf8Dec bs with
  | some cps => charsOf cps
  | none =>
    match gbDec bs with
    | some cps => charsOf cps
    | none => charsOf (utf8ReplaceCps bs)

/-- `int` applied to a decimal digit byte string. -/
def natOfDigits (l : List Nat) : Nat := l.foldl (fun a b => a * 10 + (b - 48)) 0

/-- The tag name stored by the parser: the raw name bytes decoded with
`decode('ascii', errors='ignore')` (bytes `≥ 0x80` dropped) and uppercased. -/
def tagNameOf (nB : List Nat) : String :=
  String.mk ((nB.filter (fun b => b < 128)).map (fun b => Char.ofNat (upperByte b)))

/-- Match the tag pattern `<([^:>]+):(\\d+)(?::[^>]+)?>` at the head of `l`
(the compiled `tag_pattern` of `AdifParser`; the regex's backtracking at a
fixed start position is deterministic because the character classes
exclude their terminators).  Returns the name bytes, the declared length,
and the bytes following the closing `>`. -/
def matchTag : List Nat → Option (List Nat × Nat × List Nat)
  | 60 :: rest =>
    let nB := rest.takeWhile (fun b => ¬(b = 58 ∨ b = 62))
    if nB = [] then none
    else
      match rest.drop nB.length with
      | 58 :: rest2 =>
        let dB := rest2.takeWhile isDigitByte
        if dB = [] then none
        else
          match rest2.drop dB.length with
          | 62 :: rest3 => some (nB, natOfDigits dB, rest3)
          | 58 :: rest3 =>
            let tB := rest3.takeWhile (fun b => ¬b = 62)
            if tB = [] then none
            else
              match rest3.drop tB.length with
              | 62 :: rest4 => some (nB, natOfDigits dB, rest4)
              | _ => none
          | _ => none
      | _ => none
  | _ => none

/-- `tag_pattern.search(raw, pos)` restricted to the suffix from `pos`:
scan forward for the first position where `matchTag` succeeds. -/
def tagScan : List Nat → Option (List Nat × Nat × List Nat)
  | [] => none
  | b :: t =>
    match matchTag (b :: t) with
    | some r => some r
    | none => tagScan t

/-- The scanning loop of `AdifParser._parse_single_record` (lines 64-96):
repeatedly search for the next tag; when the declared value span fits in
the remaining data, store the decoded value under the decoded tag name and
continue past the span; when it does not fit, stop.  The cursor `pos` of
the source is represented by the suffix of the raw data from `pos`; the
fuel argument only makes the recursion structural and every caller
supplies at least `remaining.length`, which bounds the number of
iterations because each successful match consumes at least five bytes. -/
def parseLoop : Nat → List Nat → Record → Record
  | 0, _, d => d
  | _ + 1, [], d => d
  | fuel + 1, b :: t, d =>
    match tagScan (b :: t) with
    | none => d
    | some (nB, vlen, rest) =>
      if vlen ≤ rest.length then
        parseLoop fuel (rest.drop vlen) (dset d (tagNameOf nB) (decodeValue (rest.take vlen)))
      else d

/-- `AdifParser._parse_single_record` (lines 52-100): a blank span yields
nothing; otherwise decode tags starting from a dict holding only the
provenance entry, and yield the record only if at least one real tag was
stored. -/
def parse_single_record (fileName : String) (raw : List Nat) : Option Record :=
  if raw.all isSpaceByte then none
  else
    let d := parseLoop raw.length raw [("_SOURCE_FILE", fileName)]
    if 1 < d.length then some d else none

/-- The inner record-splitting loop of `AdifParser.stream_records`
(lines 138-154): split off and parse a record at each case-insensitive
`<eor>`, returning the parsed records in order and the leftover buffer.
The fuel only makes the recursion structural; each iteration removes at
least five bytes, so `buf.length` iterations always suffice. -/
def drainEor (fileName : String) : Nat → List Nat → List Record × List Nat
  | 0, buf => ([], buf)
  | fuel + 1, buf =>
    match findSub (lowerBytes buf) eorBytes with
    | none => ([], buf)
    | some i =>
      let raw := buf.take i
      let rest := buf.drop (i + 5)
      let r := drainEor fileName fuel rest
      ((parse_single_record fileName raw).toList ++ r.1, r.2)

/-- The 2 MiB chunk size of `stream_records` (line 109). -/
def chunkSize : Nat := 2 * 1024 * 1024

/-- The 10 MiB header-forcing threshold of `stream_records` (line 133). -/
def headerForceLimit : Nat := 10 * 1024 * 1024

/-- The chunked reading loop of `AdifParser.stream_records` (lines
102-160): accumulate chunks into a buffer; before the header terminator is
found, search for case-insensitive `<eoh>` and either drop through it, or
skip record parsing for this chunk (forcing header-parsing to start once
the buffer exceeds the safety threshold); after it, drain complete records
from the buffer; at source exhaustion parse any non-blank remainder as one
final record.  The fuel only makes the recursion structural; `remaining`
shrinks by a chunk each iteration, so `remaining.length + 1` suffices. -/
def streamLoop (fileName : String) (cs : Nat) :
    Nat → List Nat → List Nat → Bool → List Record
  | 0, _, buffer, _ =>
    if buffer.all isSpaceByte then [] else (parse_single_record fileName buffer).toList
  | fuel + 1, remaining, buffer, headerFound =>
    let chunk := remaining.take cs
    if chunk.isEmpty then
      if buffer.all isSpaceByte then [] else (parse_single_record fileName buffer).toList
    else
      let rest := remaining.drop cs
      let buf := buffer ++ chunk
      if headerFound then
        let r := drainEor fileName buf.length buf
        r.1 ++ streamLoop fileName cs fuel rest r.2 true
      else
        match findSub (lowerBytes buf) eohBytes with
        | some i =>
          let buf2 := buf.drop (i + 5)
          let r := drainEor fileName buf2.length buf2
          r.1 ++ streamLoop fileName cs fuel rest r.2 true
        | none =>
          if headerForceLimit < buf.length then streamLoop fileName cs fuel rest buf true
          else streamLoop fileName cs fuel rest buf false

/-- `AdifParser.stream_records` applied to the full byte contents of a
source, as a list of the yielded records. -/
def stream_records (fileName : String) (fileBytes : List Nat) : List Record :=
  streamLoop fileName chunkSize (fileBytes.length + 1) fileBytes [] false

/-- Decimal digit bytes of `n`, most significant first (the digits of the
Python decimal representation `str(n)`).  Fueled to keep the recursion
structural; `n + 1` units always suffice. -/
def natDigitsAux : Nat → Nat → List Nat
  | 0, _ => []
  | fuel + 1, n => if n < 10 then [48 + n] else natDigitsAux fuel (n / 10) ++ [48 + n % 10]

/-- Decimal digit bytes of `n`. -/
def natDigits (n : Nat) : List Nat := natDigitsAux (n + 1) n

/-- Python `str(n)` for a natural number. -/
def natRepr (n : Nat) : String := String.mk ((natDigits n).map (fun b => Char.ofNat b))

/-- The fixed header text written by `write_adif_file` (lines 234-239). -/
def adifHeader : String :=
  "ADIF Export from Python Tool (Splitted by Call-Grid)\r\nCreated by Gemini\r\n<ADIF_VER:5>3.1.4\r\n<EOH>\r\n"

/-- Python `tag.startswith('_')`: does the first character equal `_`?
(`String.startsWith` itself does not reduce under kernel evaluation, so
the one-character case the program uses is modelled directly.) -/
def startsUnderscore (s : String) : Bool :=
  match s.data with
  | [] => false
  | c :: _ => c = '_'

/-- The record line built by `write_adif_file` (lines 247-254): for each
tag in dict order, skipping names that start with an underscore, append
`<TAG:n>value ` where `n` is the byte length of the value in the output
encoding (`len(val_str.encode(out_encoding))`, the same `gb18030` encoding
the file is written with). -/
def recLine (rec : Record) : String :=
  rec.foldl
    (fun line p =>
      if startsUnderscore p.1 then line
      else line ++ "<" ++ p.1 ++ ":" ++ natRepr (encodeStr p.2).length ++ ">" ++ p.2 ++ " ")
    ""

/-- `write_adif_file` (lines 232-257) as the byte contents of the written
file: the header, then one line per record followed by `<EOR>\r\n`, all
encoded with the fixed output encoding.  (The file is opened in text mode;
on POSIX no newline translation occurs, so the bytes are exactly the
encoded text.) -/
def write_adif_file (records : List Record) : List Nat :=
  encodeStr adifHeader ++
    (records.map (fun r => encodeStr (recLine r ++ "<EOR>\r\n"))).flatten

/-- A parsed `datetime` value (year, month, day, hour, minute, second). -/
structure DT where
  y : Nat
  m : Nat
  d : Nat
  h : Nat
  mi : Nat
  s : Nat
deriving DecidableEq, Repr

/-- Numeric value of a digit character. -/
def dval (c : Char) : Nat := c.toNat - 48

/-- Is the character in the inclusive code-point range? -/
def inRange (lo hi : Nat) (c : Char) : Bool := lo ≤ c.toNat ∧ c.toNat ≤ hi

/-- One two-character regex alternative: both characters must satisfy
their class; the value is the two-digit number. -/
def alt2 (p1 p2 : Char → Bool) : List Char → Option (Nat × List Char)
  | a :: b :: r => if p1 a ∧ p2 b then some (dval a * 10 + dval b, r) else none
  | _ => none

/-- One single-character regex alternative. -/
def alt1 (p : Char → Bool) : List Char → Option (Nat × List Char)
  | a :: r => if p a then some (dval a, r) else none
  | _ => none

/-- The ` [1-9]` alternative of the `%d` directive: a space then a digit. -/
def altSpaceDigit : List Char → Option (Nat × List Char)
  | a :: b :: r => if a = ' ' ∧ inRange 49 57 b then some (dval b, r) else none
  | _ => none

/-- `\d\d\d\d` (the `%Y` directive). -/
def alt4 : List Char → Option (Nat × List Char)
  | a :: b :: c :: d :: r =>
    if a.isDigit ∧ b.isDigit ∧ c.isDigit ∧ d.isDigit then
      some (((dval a * 10 + dval b) * 10 + dval c) * 10 + dval d, r)
    else none
  | _ => none

/-- Try regex alternatives in order with full backtracking: if an
alternative matches but the continuation fails, the next alternative is
tried, exactly as the backtracking regex engine behind
`datetime.strptime` does. -/
def tryAlts (alts : List (List Char → Option (Nat × List Char))) (cs : List Char)
    (k : Nat → List Char → Option α) : Option α :=
  match alts with
  | [] => none
  | a :: rest =>
    match a cs with
    | some (v, cs2) =>
      match k v cs2 with
      | some r => some r
      | none => tryAlts rest cs k
    | none => tryAlts rest cs k

/-- The alternatives of CPython's `TimeRE` directive `%m`:
`1[0-2]|0[1-9]|[1-9]`. -/
def monthAlts : List (List Char → Option (Nat × List Char)) :=
  [alt2 (fun c => c = '1') (inRange 48 50),
   alt2 (fun c => c = '0') (inRange 49 57),
   alt1 (inRange 49 57)]

/-- The alternatives of CPython's `TimeRE` directive `%d`:
`3[0-1]|[1-2]\d|0[1-9]|[1-9]| [1-9]`. -/
def dayAlts : List (List Char → Option (Nat × List Char)) :=
  [alt2 (fun c => c = '3') (inRange 48 49),
   alt2 (inRange 49 50) Char.isDigit,
   alt2 (fun c => c = '0') (inRange 49 57),
   alt1 (inRange 49 57),
   altSpaceDigit]

/-- The alternatives of CPython's `TimeRE` directive `%H`:
`2[0-3]|[0-1]\d|\d`. -/
def hourAlts : List (List Char → Option (Nat × List Char)) :=
  [alt2 (fun c => c = '2') (inRange 48 51),
   alt2 (inRange 48 49) Char.isDigit,
   alt1 Char.isDigit]

/-- The alternatives of CPython's `TimeRE` directive `%M`: `[0-5]\d|\d`. -/
def minuteAlts : List (List Char → Option (Nat × List Char)) :=
  [alt2 (inRange 48 53) Char.isDigit, alt1 Char.isDigit]

/-- The alternatives of CPython's `TimeRE` directive `%S`:
`6[0-1]|[0-5]\d|\d`. -/
def secondAlts : List (List Char → Option (Nat × List Char)) :=
  [alt2 (fun c => c = '6') (inRange 48 49),
   alt2 (inRange 48 53) Char.isDigit,
   alt1 Char.isDigit]

/-- The regex-matching phase of `datetime.strptime(s, "%Y%m%d%H%M%S")`:
find the first (leftmost, earlier alternatives preferred) match of the
concatenated directive patterns against a prefix of `s`, returning the six
captured numbers and the unconsumed remainder.  The innermost continuation
always succeeds, so backtracking is driven purely by the directives, as in
the regex engine. -/
def matchYmdHMS (cs : List Char) :
    Option (Nat × Nat × Nat × Nat × Nat × Nat × List Char) :=
  match alt4 cs with
  | none => none
  | some (y, cs1) =>
    tryAlts monthAlts cs1 (fun m cs2 =>
      tryAlts dayAlts cs2 (fun d cs3 =>
        tryAlts hourAlts cs3 (fun h cs4 =>
          tryAlts minuteAlts cs4 (fun mi cs5 =>
            tryAlts secondAlts cs5 (fun s cs6 =>
              some (y, m, d, h, mi, s, cs6))))))

/-- Gregorian leap-year test, as `calendar`/`datetime` use. -/
def isLeap (y : Nat) : Bool := (y % 4 = 0 ∧ ¬y % 100 = 0) ∨ y % 400 = 0

/-- Days in a month of the proleptic Gregorian calendar. -/
def daysInMonth (y m : Nat) : Nat :=
  if m = 2 then (if isLeap y then 29 else 28)
  else if m = 4 ∨ m = 6 ∨ m = 9 ∨ m = 11 then 30
  else 31

/-- The validation performed by the `datetime` constructor on the numbers
the regex produced: year in `MINYEAR..MAXYEAR`, a real calendar day, hour
below 24, minute and second below 60 (the regex can produce seconds 60 and
61, which `datetime` rejects). -/
def dtValid (y m d h mi s : Nat) : Bool :=
  1 ≤ y ∧ y ≤ 9999 ∧ 1 ≤ m ∧ m ≤ 12 ∧ 1 ≤ d ∧ d ≤ daysInMonth y m ∧
    h ≤ 23 ∧ mi ≤ 59 ∧ s ≤ 59

/-- `datetime.strptime(s, "%Y%m%d%H%M%S")` as an `Option`: `none` when the
regex does not match, when unconverted data remains, or when the
`datetime` constructor rejects the captured numbers — the cases in which
CPython raises `ValueError`. -/
def strptimeYmdHMS (s : String) : Option DT :=
  match matchYmdHMS s.data with
  | none => none
  | some (y, m, d, h, mi, sec, rest) =>
    if rest = [] ∧ dtValid y m d h mi sec then some ⟨y, m, d, h, mi, sec⟩ else none

/-- `get_qso_time` (lines 21-37): combine `QSO_DATE` and a `TIME_ON`
normalised to six characters (right-padded with `'0'` when shorter,
truncated when longer, defaulting to `"000000"` when absent) and parse
under the fixed format; the bare `except` turns every parse failure into
the absent sentinel. -/
def get_qso_time (rec : Record) : Option DT :=
  let date_str := (dget rec "QSO_DATE").getD ""
  let time_str := (dget rec "TIME_ON").getD "000000"
  let time_str := if time_str.length < 6 then
      time_str ++ String.mk (List.replicate (6 - time_str.length) '0')
    else String.mk (time_str.data.take 6)
  strptimeYmdHMS (date_str ++ time_str)

/-- Cumulative days before month `m` in a year like `y`. -/
def daysBeforeMonth (y m : Nat) : Nat :=
  [0, 31, 59, 90, 120, 151, 181, 212, 243, 273, 304, 334].getD (m - 1) 0 +
    (if 2 < m ∧ isLeap y then 1 else 0)

/-- `datetime.date.toordinal`: day number in the proleptic Gregorian
calendar, with day 1 = January 1 of year 1. -/
def toOrdinal (y m d : Nat) : Nat :=
  365 * (y - 1) + ((y - 1) / 4 - (y - 1) / 100) + (y - 1) / 400 + daysBeforeMonth y m + d

/-- A `datetime` instant as a second count.  Differences of these values
are exactly the `total_seconds()` of the corresponding `timedelta`
(within `datetime`'s year range the float result is exact). -/
def dtSeconds (t : DT) : Nat :=
  toOrdinal t.y t.m t.d * 86400 + t.h * 3600 + t.mi * 60 + t.s

/-- Absolute difference of two instants in seconds,
`abs((a - b).total_seconds())`. -/
def secDiff (a b : DT) : Nat := ((dtSeconds a : Int) - (dtSeconds b : Int)).natAbs

/-- One entry of the duplicate report list `dupe_details` (lines 214-218). -/
structure DupeDetail where
  station : String
  new_rec : Record
  old_rec : Record
deriving DecidableEq

/-- The comparison key `(DX_Call, Band, Mode)`. -/
abbrev CmpKey := String × String × String

/-- The state of `FastDeduplicator` (lines 165-177): the per-group output
lists, the per-group per-key candidate index, and the duplicate report
list.  The two `defaultdict`s are modelled as total functions defaulting
to the empty list. -/
structure FastDeduplicator where
  final_records : String → List Record
  lookup_index : String → CmpKey → List (DT × Record)
  dupe_details : List DupeDetail

/-- A fresh `FastDeduplicator` (its `__init__`). -/
def FastDeduplicator.init : FastDeduplicator :=
  ⟨fun _ => [], fun _ _ => [], []⟩

/-- Python `str.upper` restricted to ASCII letters; the records this
program compares carry ASCII field values, and no theorem below depends on
the case table beyond ASCII. -/
def pyUpper (s : String) : String := String.mk (s.data.map Char.toUpper)

/-- The candidate scan of `process_record` (lines 205-211): walk the
candidate list in insertion order and return the first entry whose time
differs from `t` by at most 900 seconds (the `break` makes it
first-match-wins). -/
def scanDupe (t : DT) : List (DT × Record) → Option (DT × Record)
  | [] => none
  | (tE, rE) :: rest => if secDiff t tE ≤ 900 then some (tE, rE) else scanDupe t rest

/-- `FastDeduplicator._add_to_storage` (lines 222-230): append to the
group's output list, and also to the candidate index when both the contact
callsign and the time are present. -/
def FastDeduplicator.add_to_storage (st : FastDeduplicator) (group_key : String)
    (record : Record) (dx_call band mode : String) (qso_time : Option DT) :
    FastDeduplicator :=
  let fr := fun g => if g = group_key then st.final_records g ++ [record]
    else st.final_records g
  match qso_time with
  | some t =>
    if dx_call = "" then ⟨fr, st.lookup_index, st.dupe_details⟩
    else
      ⟨fr,
       fun g k => if g = group_key ∧ k = (dx_call, band, mode) then
           st.lookup_index g k ++ [(t, record)]
         else st.lookup_index g k,
       st.dupe_details⟩
  | none => ⟨fr, st.lookup_index, st.dupe_details⟩

/-- `FastDeduplicator.process_record` (lines 179-220): extract the
comparison fields and the time; records lacking a callsign or time are
stored without joining the index; otherwise the group's candidate list for
the comparison key is scanned and the record is either reported as a
duplicate of the first match or stored and indexed. -/
def FastDeduplicator.process_record (st : FastDeduplicator) (record : Record)
    (group_key : String) : FastDeduplicator :=
  let dx_call := pyUpper ((dget record "CALL").getD "")
  let band := pyUpper ((dget record "BAND").getD "")
  let mode := pyUpper ((dget record "MODE").getD "")
  let qso_time := get_qso_time record
  if dx_call = "" ∨ qso_time = none then
    st.add_to_storage group_key record dx_call band mode qso_time
  else
    match qso_time with
    | none => st.add_to_storage group_key record dx_call band mode qso_time
    | some t =>
      match scanDupe t (st.lookup_index group_key (dx_call, band, mode)) with
      | some p =>
        ⟨st.final_records, st.lookup_index,
         st.dupe_details ++ [⟨group_key, record, p.2⟩]⟩
      | none => st.add_to_storage group_key record dx_call band mode qso_time

/-- Python `str.strip` restricted to ASCII whitespace (the callsign and
locator fields this program strips are ASCII). -/
def pyStrip (s : String) : String :=
  String.mk (((s.data.dropWhile (fun c => isSpaceByte c.toNat)).reverse.dropWhile
    (fun c => isSpaceByte c.toNat)).reverse)

/-- Python `str.replace('/', '_')`: the replaced text is a single
character, so the substring replacement is a character map. -/
def pyReplaceSlash (s : String) : String :=
  String.mk (s.data.map (fun c => if c = '/' then '_' else c))

/-- Python `str.isalnum` restricted to ASCII letters and digits. -/
def isAlnumChar (c : Char) : Bool :=
  (48 ≤ c.toNat ∧ c.toNat ≤ 57) ∨ (65 ≤ c.toNat ∧ c.toNat ≤ 90) ∨
    (97 ≤ c.toNat ∧ c.toNat ≤ 122)

/-- The group-key derivation inlined in `process_adi_files` (lines
400-420): sanitise the station callsign (strip, uppercase, `/` → `_`,
empty or missing → `UNKNOWN`); if the locator is present and non-blank,
strip, uppercase and keep only alphanumeric characters and join as
`call-grid`; otherwise join with the `NOGRID` placeholder. -/
def derive_group_key (raw_callsign raw_grid : Option String) : String :=
  let call_part := match raw_callsign with
    | none => "UNKNOWN"
    | some s =>
      if pyStrip s = "" then "UNKNOWN"
      else pyReplaceSlash (pyUpper (pyStrip s))
  match raw_grid with
  | some g =>
    if pyStrip g = "" then call_part ++ "-NOGRID"
    else
      let grid_part := pyUpper (pyStrip g)
      let grid_part := String.mk (grid_part.data.filter isAlnumChar)
      call_part ++ "-" ++ grid_part
  | none => call_part ++ "-NOGRID"

/-- Modelled from the spec: the time field normalised to six characters by
"right-padding with zeros when short, or truncating to 6 characters when
long", written uniformly as pad-then-truncate. -/
def specTime6 (t : String) : String :=
  String.mk ((t.data ++ List.replicate 6 '0').take 6)

/-- Modelled from the spec (section 4.3): combine the date field and the
normalised time field (defaulting to all zeros when absent) into one
string and parse it under the fixed format, with the absent sentinel on
failure. -/
def spec_time_key (rec : Record) : Option DT :=
  strptimeYmdHMS
    (((dget rec "QSO_DATE").getD "") ++ specTime6 ((dget rec "TIME_ON").getD "000000"))

/-- Modelled from the spec (section 4.5): the sanitised callsign component
of the group key — trim, uppercase, replace `/`, with the fixed `UNKNOWN`
placeholder when the field is missing or blank. -/
def specCallPart (raw_callsign : Option String) : String :=
  match raw_callsign with
  | none => "UNKNOWN"
  | some s => if pyStrip s = "" then "UNKNOWN" else pyReplaceSlash (pyUpper (pyStrip s))

/-- The locator component of the group key as the code actually computes
it (the amended form of the spec's description): the fixed `NOGRID`
placeholder is used exactly when the field is missing or blank *before*
sanitisation; a non-blank locator is trimmed, uppercased and stripped of
non-alphanumeric characters, and may therefore end up empty without
becoming `NOGRID`. -/
def specGridPart (raw_grid : Option String) : String :=
  match raw_grid with
  | none => "NOGRID"
  | some g =>
    if pyStrip g = "" then "NOGRID"
    else String.mk ((pyUpper (pyStrip g)).data.filter isAlnumChar)

/-- Allowed bytes for a well-formed tag name: ASCII uppercase letters,
digits and underscore. -/
def wfNameByte (b : Nat) : Bool := (65 ≤ b ∧ b ≤ 90) ∨ (48 ≤ b ∧ b ≤ 57) ∨ b = 95

/-- A well-formed serialisable tag name: nonempty, not underscore-initial
(so the encoder keeps it), over uppercase letters, digits and underscore
(the alphabet the parser itself produces for such names). -/
def wfName (s : String) : Prop :=
  s ≠ "" ∧ startsUnderscore s = false ∧ s.data.all (fun c => wfNameByte c.toNat)

/-- A well-formed serialisable tag value: ASCII, and containing no
case-insensitive occurrence of the record terminator `<eor>` (the spec's
data-model invariant: values never contain the record terminator
sequence; the parser can never produce one that does). -/
def wfValue (s : String) : Prop :=
  s.data.all (fun c => c.toNat < 128) ∧
    hasSub (lowerBytes (s.data.map Char.toNat)) eorBytes = false

/-- A record as the parser stores it, restricted to ASCII values: the
provenance entry first, then at least one real tag with well-formed
distinct names and well-formed values. -/
def wfRecord (r : Record) : Prop :=
  match r with
  | [] => False
  | (k, _) :: tags =>
    k = "_SOURCE_FILE" ∧ tags ≠ [] ∧ (∀ p ∈ tags, wfName p.1 ∧ wfValue p.2) ∧
      (tags.map Prod.fst).Nodup

/-- Raw bytes of one complete tag-value block `<name:len>value` as it can
occur inside a raw record span (no separating space). -/
def rawTagBlock (nB vB : List Nat) : List Nat :=
  60 :: nB ++ 58 :: natDigits vB.length ++ 62 :: vB

/-- Raw bytes of a bare tag header `<name:digits>`. -/
def rawTagHeader (nB dB : List Nat) : List Nat :=
  60 :: nB ++ 58 :: dB ++ [62]

/-- Well-formed raw tag-name bytes: nonempty and free of the `:` and `>`
terminators, so the tag pattern matches the whole name. -/
def wfNameBytes (nB : List Nat) : Prop :=
  nB ≠ [] ∧ ∀ b ∈ nB, ¬(b = 58 ∨ b = 62)

instance : DecidablePred wfNameBytes := fun nB => by
  unfold wfNameBytes
  infer_instance

/-- Raw bytes of a sequence of adjacent complete tag-value blocks. -/
def rawBlocks (tags : List (List Nat × List Nat)) : List Nat :=
  (tags.map (fun p => rawTagBlock p.1 p.2)).flatten

/-- The text emitted for one tag: `<TAG:n>value ` where `n` is the byte
length of the value under the output encoding — the same `gbEncChar`
encoding `write_adif_file` encodes the whole file with. -/
def tagChunk (p : String × String) : String :=
  "<" ++ p.1 ++ ":" ++ natRepr (encodeStr p.2).length ++ ">" ++ p.2 ++ " "

/-- The record line as a flat concatenation: the tag chunks of exactly
those tags whose names do not start with the internal-field marker `_`. -/
def specLine (r : Record) : String :=
  ((r.filter (fun p => ¬startsUnderscore p.1)).map tagChunk).foldr (· ++ ·) ""

/-- The bytes of an ASCII string (each character's code point). -/
def strBytes (s : String) : List Nat := s.data.map Char.toNat

/-- Raw bytes of a run of space-terminated tag blocks, the shape
`write_adif_file` emits. -/
def rawBlocksSp (tags : List (List Nat × List Nat)) : List Nat :=
  (tags.map (fun p => rawTagBlock p.1 p.2 ++ [32])).flatten

/-- A byte segment is *clean* when no occurrence of the record terminator
can start inside it, whatever follows it. -/
def CleanSeg (A : List Nat) : Prop :=
  ∀ (T : List Nat) (j : Nat), j < A.length → ¬ eorBytes.IsPrefix ((A ++ T).drop j)

/-- `drainEor` at the fuel that always suffices: one unit per buffer byte. -/
def drain (fileName : String) (buf : List Nat) : List Record × List Nat :=
  drainEor fileName buf.length buf

/-- The per-record byte payload of `write_adif_file`: the encoded record
lines, each closed by an explicit `<EOR>` and a line break. -/
def bodyBytes (records : List Record) : List Nat :=
  (records.map (fun r => encodeStr (recLine r ++ "<EOR>\r\n"))).flatten

instance : DecidablePred wfName := fun s => by
  unfold wfName
  infer_instance

instance : DecidablePred wfValue := fun s => by
  unfold wfValue
  infer_instance

instance : DecidablePred wfRecord := fun r => by
  cases r with
  | nil => exact inferInstanceAs (Decidable False)
  | cons p tags =>
    obtain ⟨k, v⟩ := p
    unfold wfRecord
    infer_instance

/-! ## Theorems -/

/-- The imperative line builder of `write_adif_file` equals the flat
filtered concatenation `specLine`. -/
theorem recLine_eq_specLine (r : Record) : recLine r = specLine r := by
  have gen : ∀ (l : Record) (acc : String),
      l.foldl
        (fun line p =>
          if startsUnderscore p.1 then line
          else line ++ "<" ++ p.1 ++ ":" ++ natRepr (encodeStr p.2).length ++ ">" ++ p.2 ++ " ")
        acc = acc ++ specLine l := by
    intro l
    induction l with
    | nil => intro acc; simp [specLine]
    | cons p t ih =>
      intro acc
      by_cases h : startsUnderscore p.1 = true
      · simp only [List.foldl_cons, if_pos h]
        rw [ih]
        unfold specLine
        rw [List.filter_cons_of_neg (by simpa using h)]
      · simp only [List.foldl_cons, if_neg h]
        rw [ih]
        unfold specLine
        rw [List.filter_cons_of_pos (by simpa using h)]
        simp only [List.map_cons, List.foldr_cons]
        rw [← String.append_assoc]
        congr 1
        unfold tagChunk
        simp [String.append_assoc]
  unfold recLine
  rw [gen r ""]
  have : ∀ s : String, "" ++ s = s := fun s => by
    apply String.ext
    simp [String.data_append]
  rw [this]

/-- The candidate scan returns `none` exactly on lists with no candidate
within the tolerance window. -/
theorem scanDupe_eq_none (t : DT) (l : List (DT × Record))
    (h : ∀ p ∈ l, 900 < secDiff t p.1) : scanDupe t l = none := by
  induction l with
  | nil => rfl
  | cons p rest ih =>
    obtain ⟨tE, rE⟩ := p
    have h1 : 900 < secDiff t tE := h (tE, rE) (List.mem_cons_self _ _)
    simp only [scanDupe]
    rw [if_neg (by omega)]
    exact ih (fun q hq => h q (List.mem_cons_of_mem _ hq))

/-- The candidate scan returns the first in-window candidate in insertion
order. -/
theorem scanDupe_eq_get (t : DT) (l : List (DT × Record)) (i : Nat) (hi : i < l.length)
    (hhit : secDiff t (l.get ⟨i, hi⟩).1 ≤ 900)
    (hmiss : ∀ j (hj : j < i), 900 < secDiff t (l.get ⟨j, by omega⟩).1) :
    scanDupe t l = some (l.get ⟨i, hi⟩) := by
  induction l generalizing i with
  | nil => simp at hi
  | cons p rest ih =>
    obtain ⟨tE, rE⟩ := p
    match i with
    | 0 =>
      have hhit' : secDiff t tE ≤ 900 := hhit
      simp only [scanDupe]
      rw [if_pos hhit']
      rfl
    | i' + 1 =>
      have h0 : 900 < secDiff t tE := hmiss 0 (by omega)
      simp only [scanDupe]
      rw [if_neg (by omega)]
      have hi' : i' < rest.length := by simpa using hi
      have : scanDupe t rest = some (rest.get ⟨i', hi'⟩) := by
        refine ih i' hi' hhit ?_
        intro j hj
        exact hmiss (j + 1) (by omega)
      rw [this]
      rfl

/-- Storing a record touches only its own group's output list and index
entry. -/
theorem add_to_storage_isolates (st : FastDeduplicator) (gk : String) (r : Record)
    (dx band mode : String) (qt : Option DT) (g' : String) (hne : g' ≠ gk) :
    (st.add_to_storage gk r dx band mode qt).lookup_index g' = st.lookup_index g' ∧
      (st.add_to_storage gk r dx band mode qt).final_records g' = st.final_records g' := by
  unfold FastDeduplicator.add_to_storage
  cases qt with
  | none => simp [hne]
  | some t =>
    by_cases hdx : dx = ""
    · simp [hdx, hne]
    · refine ⟨funext fun k => ?_, ?_⟩ <;> simp [hdx, hne]

/-- Processing a record never touches another group's output list or
index. -/
theorem process_record_isolates (st : FastDeduplicator) (r : Record) (gk g' : String)
    (hne : g' ≠ gk) :
    (st.process_record r gk).lookup_index g' = st.lookup_index g' ∧
      (st.process_record r gk).final_records g' = st.final_records g' := by
  unfold FastDeduplicator.process_record
  dsimp only
  split
  · exact add_to_storage_isolates st gk r _ _ _ _ g' hne
  · split
    · exact add_to_storage_isolates st gk r _ _ _ _ g' hne
    · split
      · exact ⟨rfl, rfl⟩
      · exact add_to_storage_isolates st gk r _ _ _ _ g' hne

/-- A record whose group's candidate list for its comparison key is empty
is accepted: the duplicate report is unchanged and the record is appended
to the group's output list. -/
theorem process_record_accepts_of_no_candidate (st : FastDeduplicator) (r : Record)
    (gk : String)
    (h : st.lookup_index gk (pyUpper ((dget r "CALL").getD ""),
      pyUpper ((dget r "BAND").getD ""), pyUpper ((dget r "MODE").getD "")) = []) :
    (st.process_record r gk).dupe_details = st.dupe_details ∧
      (st.process_record r gk).final_records gk = st.final_records gk ++ [r] := by
  unfold FastDeduplicator.process_record
  dsimp only
  split
  · unfold FastDeduplicator.add_to_storage
    cases hq : get_qso_time r with
    | none => simp
    | some t =>
      by_cases hdx : pyUpper ((dget r "CALL").getD "") = "" <;> simp [hdx]
  · rename_i hcond
    cases hq : get_qso_time r with
    | none => exact absurd (Or.inr hq) hcond
    | some t =>
      dsimp only
      rw [h]
      have : scanDupe t ([] : List (DT × Record)) = none := rfl
      rw [this]
      unfold FastDeduplicator.add_to_storage
      by_cases hdx : pyUpper ((dget r "CALL").getD "") = ""
      · exact absurd (Or.inl hdx) hcond
      · simp [hdx]

/-- C2.  For a record with a non-empty contact callsign and a present
TimeKey, `process_record` classifies it Duplicate exactly when some
candidate already indexed under the same group and comparison key lies
within 900 seconds (absolute difference): if every candidate is more than
900 seconds away the record is accepted (stored and indexed, report
unchanged), and if the first in-window candidate in insertion order is at
position `i` the record is reported as a duplicate of that candidate's
record, with the stores unchanged.  In particular a difference of exactly
900 seconds yields Duplicate and 901 seconds yields Accepted (see the
witness). -/
theorem c2_duplicate_window (st : FastDeduplicator) (r : Record) (gk : String) (t : DT)
    (hdx : pyUpper ((dget r "CALL").getD "") ≠ "")
    (ht : get_qso_time r = some t) :
    (((∀ p ∈ st.lookup_index gk (pyUpper ((dget r "CALL").getD ""),
          pyUpper ((dget r "BAND").getD ""), pyUpper ((dget r "MODE").getD "")),
        900 < secDiff t p.1) →
      st.process_record r gk =
        ⟨fun g => if g = gk then st.final_records g ++ [r] else st.final_records g,
         fun g k => if g = gk ∧ k = (pyUpper ((dget r "CALL").getD ""),
             pyUpper ((dget r "BAND").getD ""), pyUpper ((dget r "MODE").getD "")) then
             st.lookup_index g k ++ [(t, r)]
           else st.lookup_index g k,
         st.dupe_details⟩) ∧
     (∀ i (hi : i < (st.lookup_index gk (pyUpper ((dget r "CALL").getD ""),
          pyUpper ((dget r "BAND").getD ""), pyUpper ((dget r "MODE").getD ""))).length),
        secDiff t ((st.lookup_index gk (pyUpper ((dget r "CALL").getD ""),
          pyUpper ((dget r "BAND").getD ""),
          pyUpper ((dget r "MODE").getD ""))).get ⟨i, hi⟩).1 ≤ 900 →
        (∀ j (hj : j < i), 900 < secDiff t ((st.lookup_index gk
          (pyUpper ((dget r "CALL").getD ""), pyUpper ((dget r "BAND").getD ""),
          pyUpper ((dget r "MODE").getD ""))).get ⟨j, by omega⟩).1) →
        st.process_record r gk =
          ⟨st.final_records, st.lookup_index,
           st.dupe_details ++ [⟨gk, r,
             ((st.lookup_index gk (pyUpper ((dget r "CALL").getD ""),
               pyUpper ((dget r "BAND").getD ""),
               pyUpper ((dget r "MODE").getD ""))).get ⟨i, hi⟩).2⟩]⟩)) := by
  constructor
  · intro hmiss
    simp only [FastDeduplicator.process_record, FastDeduplicator.add_to_storage]
    rw [if_neg (by simp [hdx, ht])]
    rw [ht]
    dsimp only
    rw [scanDupe_eq_none t _ hmiss]
    rw [if_neg hdx]
  · intro i hi hhit hmiss
    simp only [FastDeduplicator.process_record]
    rw [if_neg (by simp [hdx, ht])]
    rw [ht]
    dsimp only
    rw [scanDupe_eq_get t _ i hi hhit hmiss]

/-- Witness for C2 at concrete inputs: after accepting a 12:00:00 contact,
an otherwise-identical contact at 12:15:00 (exactly 900 seconds later) is
reported as its duplicate, while one at 12:15:01 (901 seconds) is
accepted. -/
theorem c2_duplicate_window_witness :
    (pyUpper ((dget [("CALL", "W1AW"), ("BAND", "20M"), ("MODE", "SSB"),
        ("QSO_DATE", "20240101"), ("TIME_ON", "121500")] "CALL").getD "") ≠ "" ∧
      get_qso_time [("CALL", "W1AW"), ("BAND", "20M"), ("MODE", "SSB"),
        ("QSO_DATE", "20240101"), ("TIME_ON", "121500")] = some ⟨2024, 1, 1, 12, 15, 0⟩) ∧
    ((FastDeduplicator.init.process_record
        [("CALL", "W1AW"), ("BAND", "20M"), ("MODE", "SSB"),
          ("QSO_DATE", "20240101"), ("TIME_ON", "120000")] "BI4KVO-PM01").process_record
        [("CALL", "W1AW"), ("BAND", "20M"), ("MODE", "SSB"),
          ("QSO_DATE", "20240101"), ("TIME_ON", "121500")] "BI4KVO-PM01").dupe_details =
      [⟨"BI4KVO-PM01",
        [("CALL", "W1AW"), ("BAND", "20M"), ("MODE", "SSB"),
          ("QSO_DATE", "20240101"), ("TIME_ON", "121500")],
        [("CALL", "W1AW"), ("BAND", "20M"), ("MODE", "SSB"),
          ("QSO_DATE", "20240101"), ("TIME_ON", "120000")]⟩] ∧
    ((FastDeduplicator.init.process_record
        [("CALL", "W1AW"), ("BAND", "20M"), ("MODE", "SSB"),
          ("QSO_DATE", "20240101"), ("TIME_ON", "120000")] "BI4KVO-PM01").process_record
        [("CALL", "W1AW"), ("BAND", "20M"), ("MODE", "SSB"),
          ("QSO_DATE", "20240101"), ("TIME_ON", "121501")] "BI4KVO-PM01").dupe_details = [] := by
  refine ⟨⟨by decide, by decide⟩, ?_, ?_⟩
  · have h := (c2_duplicate_window
      (FastDeduplicator.init.process_record
        [("CALL", "W1AW"), ("BAND", "20M"), ("MODE", "SSB"),
          ("QSO_DATE", "20240101"), ("TIME_ON", "120000")] "BI4KVO-PM01")
      [("CALL", "W1AW"), ("BAND", "20M"), ("MODE", "SSB"),
        ("QSO_DATE", "20240101"), ("TIME_ON", "121500")] "BI4KVO-PM01"
      ⟨2024, 1, 1, 12, 15, 0⟩ (by decide) (by decide)).2 0 (by decide) (by decide)
      (fun j hj => absurd hj (by omega))
    have h2 := congrArg FastDeduplicator.dupe_details h
    exact h2.trans (by decide)
  · have h := (c2_duplicate_window
      (FastDeduplicator.init.process_record
        [("CALL", "W1AW"), ("BAND", "20M"), ("MODE", "SSB"),
          ("QSO_DATE", "20240101"), ("TIME_ON", "120000")] "BI4KVO-PM01")
      [("CALL", "W1AW"), ("BAND", "20M"), ("MODE", "SSB"),
        ("QSO_DATE", "20240101"), ("TIME_ON", "121501")] "BI4KVO-PM01"
      ⟨2024, 1, 1, 12, 15, 1⟩ (by decide) (by decide)).1 (by decide)
    have h2 := congrArg FastDeduplicator.dupe_details h
    exact h2.trans (by decide)

/-- C3.  A record with an empty or absent contact callsign, or with no
TimeKey, is always accepted no matter what was processed before: the
duplicate report is untouched, the record is appended only to the group's
stored-output list, and the comparison index is left exactly as it was
(so such a record can never later be the matched existing record of a
duplicate). -/
theorem c3_unreliable_always_accepted (st : FastDeduplicator) (r : Record) (gk : String)
    (h : pyUpper ((dget r "CALL").getD "") = "" ∨ get_qso_time r = none) :
    st.process_record r gk =
      ⟨fun g => if g = gk then st.final_records g ++ [r] else st.final_records g,
       st.lookup_index, st.dupe_details⟩ := by
  simp only [FastDeduplicator.process_record, FastDeduplicator.add_to_storage]
  rw [if_pos h]
  rcases h with h | h
  · rw [h]
    cases hq : get_qso_time r <;> simp
  · rw [h]

/-- Witness for C3: a record with no `CALL` field, processed after an
ordinary record, is accepted, stored, and leaves the index untouched. -/
theorem c3_unreliable_always_accepted_witness :
    (pyUpper ((dget [("BAND", "20M"), ("QSO_DATE", "20240101"), ("TIME_ON", "120000")]
        "CALL").getD "") = "" ∨
      get_qso_time [("BAND", "20M"), ("QSO_DATE", "20240101"), ("TIME_ON", "120000")] = none) ∧
    ((FastDeduplicator.init.process_record
        [("CALL", "W1AW"), ("BAND", "20M"), ("MODE", "SSB"),
          ("QSO_DATE", "20240101"), ("TIME_ON", "120000")] "BI4KVO-PM01").process_record
        [("BAND", "20M"), ("QSO_DATE", "20240101"), ("TIME_ON", "120000")]
        "BI4KVO-PM01").lookup_index =
      (FastDeduplicator.init.process_record
        [("CALL", "W1AW"), ("BAND", "20M"), ("MODE", "SSB"),
          ("QSO_DATE", "20240101"), ("TIME_ON", "120000")] "BI4KVO-PM01").lookup_index ∧
    ((FastDeduplicator.init.process_record
        [("CALL", "W1AW"), ("BAND", "20M"), ("MODE", "SSB"),
          ("QSO_DATE", "20240101"), ("TIME_ON", "120000")] "BI4KVO-PM01").process_record
        [("BAND", "20M"), ("QSO_DATE", "20240101"), ("TIME_ON", "120000")]
        "BI4KVO-PM01").dupe_details = [] := by
  refine ⟨Or.inl (by decide), ?_, ?_⟩
  · have h := c3_unreliable_always_accepted
      (FastDeduplicator.init.process_record
        [("CALL", "W1AW"), ("BAND", "20M"), ("MODE", "SSB"),
          ("QSO_DATE", "20240101"), ("TIME_ON", "120000")] "BI4KVO-PM01")
      [("BAND", "20M"), ("QSO_DATE", "20240101"), ("TIME_ON", "120000")]
      "BI4KVO-PM01" (Or.inl (by decide))
    have h3 := congrArg FastDeduplicator.lookup_index h
    exact h3
  · have h := c3_unreliable_always_accepted
      (FastDeduplicator.init.process_record
        [("CALL", "W1AW"), ("BAND", "20M"), ("MODE", "SSB"),
          ("QSO_DATE", "20240101"), ("TIME_ON", "120000")] "BI4KVO-PM01")
      [("BAND", "20M"), ("QSO_DATE", "20240101"), ("TIME_ON", "120000")]
      "BI4KVO-PM01" (Or.inl (by decide))
    exact (congrArg FastDeduplicator.dupe_details h).trans (by decide)

/-- C4.  Group isolation: processing a record never reads or writes
another group's index or output list, and two records with identical
comparison fields and equal TimeKeys but different group keys are both
accepted (neither produces a duplicate report entry, and each lands in its
own group's output list). -/
theorem c4_group_isolation :
    (∀ (st : FastDeduplicator) (r : Record) (gk g' : String), g' ≠ gk →
      (st.process_record r gk).lookup_index g' = st.lookup_index g' ∧
        (st.process_record r gk).final_records g' = st.final_records g') ∧
    (∀ (r1 r2 : Record) (gk1 gk2 : String), gk2 ≠ gk1 →
      dget r1 "CALL" = dget r2 "CALL" → dget r1 "BAND" = dget r2 "BAND" →
      dget r1 "MODE" = dget r2 "MODE" → get_qso_time r1 = get_qso_time r2 →
      (FastDeduplicator.init.process_record r1 gk1).dupe_details = [] ∧
        ((FastDeduplicator.init.process_record r1 gk1).process_record r2 gk2).dupe_details
          = [] ∧
        ((FastDeduplicator.init.process_record r1 gk1).process_record r2 gk2).final_records
          gk1 = [r1] ∧
        ((FastDeduplicator.init.process_record r1 gk1).process_record r2 gk2).final_records
          gk2 = [r2]) := by
  constructor
  · exact fun st r gk g' hne => process_record_isolates st r gk g' hne
  · intro r1 r2 gk1 gk2 hne _ _ _ _
    have h1 := process_record_accepts_of_no_candidate FastDeduplicator.init r1 gk1 rfl
    have hiso := process_record_isolates FastDeduplicator.init r1 gk1 gk2 hne
    have h2 := process_record_accepts_of_no_candidate
      (FastDeduplicator.init.process_record r1 gk1) r2 gk2 (by rw [hiso.1]; rfl)
    have hiso2 := process_record_isolates
      (FastDeduplicator.init.process_record r1 gk1) r2 gk2 gk1 (fun hh => hne hh.symm)
    refine ⟨?_, ?_, ?_, ?_⟩
    · exact h1.1
    · rw [h2.1]
      exact h1.1
    · rw [hiso2.2, h1.2]
      rfl
    · rw [h2.2, hiso.2]
      rfl

/-- Witness for C4: identical contacts under the group keys `BI4KVO-PM01`
and `BI4KVO-PM02` are both accepted from a fresh deduplicator. -/
theorem c4_group_isolation_witness :
    ("BI4KVO-PM02" : String) ≠ "BI4KVO-PM01" ∧
    (FastDeduplicator.init.process_record
        [("CALL", "W1AW"), ("BAND", "20M"), ("MODE", "SSB"),
          ("QSO_DATE", "20240101"), ("TIME_ON", "120000")] "BI4KVO-PM01").dupe_details
      = [] ∧
    ((FastDeduplicator.init.process_record
        [("CALL", "W1AW"), ("BAND", "20M"), ("MODE", "SSB"),
          ("QSO_DATE", "20240101"), ("TIME_ON", "120000")] "BI4KVO-PM01").process_record
        [("CALL", "W1AW"), ("BAND", "20M"), ("MODE", "SSB"),
          ("QSO_DATE", "20240101"), ("TIME_ON", "120000")] "BI4KVO-PM02").dupe_details
      = [] := by
  have h := c4_group_isolation.2
    [("CALL", "W1AW"), ("BAND", "20M"), ("MODE", "SSB"),
      ("QSO_DATE", "20240101"), ("TIME_ON", "120000")]
    [("CALL", "W1AW"), ("BAND", "20M"), ("MODE", "SSB"),
      ("QSO_DATE", "20240101"), ("TIME_ON", "120000")]
    "BI4KVO-PM01" "BI4KVO-PM02" (by decide) rfl rfl rfl rfl
  exact ⟨by decide, h.1, h.2.1⟩

/-- C8.  `get_qso_time` is total (it returns the absent sentinel rather
than raising on any parse failure, by construction of the embedding), and
its time normalisation agrees with the spec's description: the time field
(defaulting to all zeros when absent) right-padded with zeros when shorter
than six characters and truncated to six when longer, concatenated with
the date field and parsed under the fixed `%Y%m%d%H%M%S` format. -/
theorem c8_time_key_total (rec : Record) : get_qso_time rec = spec_time_key rec := by
  unfold get_qso_time spec_time_key specTime6
  set t := (dget rec "TIME_ON").getD "000000" with ht
  have hlen : t.data.length = t.length := rfl
  by_cases h : t.length < 6
  · simp only [if_pos h]
    congr 2
    apply String.ext
    simp only [String.data_append]
    rw [List.take_append_eq_append_take]
    have h6 : t.data.take 6 = t.data := List.take_of_length_le (by omega)
    rw [h6, List.take_replicate]
    congr 2
    omega
  · simp only [if_neg h]
    congr 2
    apply String.ext
    simp only [String.data_append]
    rw [List.take_append_eq_append_take]
    have h0 : (6 : Nat) - t.data.length = 0 := by omega
    rw [h0]
    simp

/-- C7 (counterexample).  A locator that is non-blank but consists only of
non-alphanumeric characters does *not* produce the `NOGRID` placeholder,
contrary to the claim: the sanitised locator part is the empty string. -/
theorem c7_group_key_counterexample :
    derive_group_key (some "BI4KVO") (some "!!!") = "BI4KVO-" ∧
      derive_group_key (some "BI4KVO") (some "!!!") ≠ "BI4KVO-NOGRID" := by
  constructor <;> decide

/-- C7 (amended).  The group key is the sanitised callsign (trimmed,
uppercased, `/` replaced by `_`, `UNKNOWN` when missing or blank) joined
by `-` with the locator part, where `NOGRID` is used exactly when the
locator is missing or blank *before* sanitisation; a non-blank locator is
trimmed, uppercased and stripped of non-alphanumeric characters and may
therefore be empty without becoming `NOGRID`. -/
theorem c7_group_key (rc rg : Option String) :
    derive_group_key rc rg = specCallPart rc ++ "-" ++ specGridPart rg := by
  have hlit : ∀ a : String, a ++ "-NOGRID" = a ++ "-" ++ "NOGRID" := by
    intro a
    rw [String.append_assoc]
    congr 1
  unfold derive_group_key specCallPart specGridPart
  cases rc <;> cases rg <;> simp only
  · exact hlit _
  · rename_i g
    by_cases hg : pyStrip g = ""
    · rw [if_pos hg, if_pos hg]
      exact hlit _
    · rw [if_neg hg, if_neg hg]
  · exact hlit _
  · rename_i s g
    by_cases hg : pyStrip g = ""
    · rw [if_pos hg, if_pos hg]
      exact hlit _
    · rw [if_neg hg, if_neg hg]

/-- C5.  The bytes `write_adif_file` produces are the header plus, per
record, the encoding of `specLine` and the record terminator — where
`specLine` declares each tag's length as the byte length of its value
under `encodeStr`, the very encoding the whole output is encoded with,
and excludes a tag exactly when its name starts with the explicit
internal-field marker `_`.  The final conjuncts show on the character
`U+9686` that this byte length differs from the character count. -/
theorem c5_length_is_byte_length (records : List Record) :
    write_adif_file records =
      encodeStr adifHeader ++
        (records.map (fun r => encodeStr (specLine r ++ "<EOR>\r\n"))).flatten ∧
      (encodeStr (String.mk [Char.ofNat 38534])).length = 2 ∧
      (String.mk [Char.ofNat 38534]).length = 1 := by
  refine ⟨?_, by decide, rfl⟩
  unfold write_adif_file
  simp only [recLine_eq_specLine]

/-- C9.  The encoder drops every tag whose name begins with an
underscore, not only the provenance attribute: serialising any record
list produces exactly the bytes of the same list with all
underscore-prefixed tags removed, and each line is the concatenation of
the chunks of precisely the non-underscore tags. -/
theorem c9_underscore_tags_dropped (records : List Record) :
    write_adif_file records =
      write_adif_file (records.map (fun r => r.filter (fun p => ¬startsUnderscore p.1))) ∧
      ∀ r : Record, recLine r =
        ((r.filter (fun p => ¬startsUnderscore p.1)).map tagChunk).foldr (· ++ ·) "" := by
  have hfilter : ∀ r : Record,
      specLine (r.filter (fun p => ¬startsUnderscore p.1)) = specLine r := by
    intro r
    unfold specLine
    rw [List.filter_filter]
    simp only [Bool.and_self]
  constructor
  · unfold write_adif_file
    rw [List.map_map]
    congr 1
    congr 1
    apply List.map_congr_left
    intro r _
    simp only [Function.comp, recLine_eq_specLine, hfilter]
  · intro r
    exact recLine_eq_specLine r

/-- `takeWhile` over an append stops exactly at the first failing
element. -/
theorem takeWhile_append_stop {p : Nat → Bool} {l1 l2 : List Nat} {x : Nat}
    (h1 : ∀ b ∈ l1, p b = true) (hx : p x = false) :
    (l1 ++ x :: l2).takeWhile p = l1 := by
  induction l1 with
  | nil => simp [List.takeWhile_cons, hx]
  | cons a t ih =>
    have ha : p a = true := h1 a (List.mem_cons_self _ _)
    simp only [List.cons_append, List.takeWhile_cons, ha, if_true]
    rw [ih (fun b hb => h1 b (List.mem_cons_of_mem _ hb))]

/-- `natDigitsAux` with sufficient fuel produces the decimal digits of its
argument: nonempty, all digit bytes, and read back by `int`. -/
theorem natDigitsAux_spec : ∀ fuel n, n < fuel →
    natOfDigits (natDigitsAux fuel n) = n ∧
      (∀ b ∈ natDigitsAux fuel n, isDigitByte b = true) ∧ natDigitsAux fuel n ≠ [] := by
  intro fuel
  induction fuel with
  | zero => intro n h; omega
  | succ f ih =>
    intro n h
    by_cases h10 : n < 10
    · simp only [natDigitsAux, if_pos h10]
      refine ⟨by simp [natOfDigits], ?_, by simp⟩
      intro b hb
      simp only [List.mem_singleton] at hb
      simp only [isDigitByte, hb]
      simp
      omega
    · simp only [natDigitsAux, if_neg h10]
      have hdiv : n / 10 < f := by
        have h1 : n / 10 < n := Nat.div_lt_self (by omega) (by omega)
        omega
      obtain ⟨ihv, ihd, ihne⟩ := ih (n / 10) hdiv
      refine ⟨?_, ?_, by simp⟩
      · unfold natOfDigits at ihv ⊢
        rw [List.foldl_append]
        simp only [List.foldl_cons, List.foldl_nil, ihv]
        omega
      · intro b hb
        rcases List.mem_append.mp hb with hb | hb
        · exact ihd b hb
        · simp only [List.mem_singleton] at hb
          simp only [isDigitByte, hb]
          simp
          omega

/-- The decimal rendering of `n` is nonempty, consists of digit bytes, and
is read back by `int`. -/
theorem natDigits_spec (n : Nat) :
    natOfDigits (natDigits n) = n ∧ (∀ b ∈ natDigits n, isDigitByte b = true) ∧
      natDigits n ≠ [] :=
  natDigitsAux_spec (n + 1) n (by omega)

/-- The tag pattern matches a well-formed header at the head of the data,
capturing the whole name and the whole digit run. -/
theorem matchTag_block (nB dB tail : List Nat)
    (hne : nB ≠ []) (hbytes : ∀ b ∈ nB, ¬(b = 58 ∨ b = 62))
    (hd : dB ≠ []) (hdig : ∀ b ∈ dB, isDigitByte b = true) :
    matchTag (60 :: (nB ++ 58 :: (dB ++ 62 :: tail))) =
      some (nB, natOfDigits dB, tail) := by
  have e1 : (nB ++ 58 :: (dB ++ 62 :: tail)).takeWhile
      (fun b => ¬(b = 58 ∨ b = 62) : Nat → Bool) = nB := by
    apply takeWhile_append_stop
    · intro b hb
      have := hbytes b hb
      simpa using this
    · simp
  have e3 : (dB ++ 62 :: tail).takeWhile isDigitByte = dB := by
    apply takeWhile_append_stop hdig
    simp [isDigitByte]
  simp only [matchTag, e1, List.drop_left, if_neg hne, e3, if_neg hd]

/-- One loop iteration decodes one complete leading block and moves past
it. -/
theorem parseLoop_block_step (fuel : Nat) (nB vB rest : List Nat) (d : Record)
    (hne : nB ≠ []) (hbytes : ∀ b ∈ nB, ¬(b = 58 ∨ b = 62)) :
    parseLoop (fuel + 1) (rawTagBlock nB vB ++ rest) d =
      parseLoop fuel rest (dset d (tagNameOf nB) (decodeValue vB)) := by
  have hassoc : rawTagBlock nB vB ++ rest =
      60 :: (nB ++ 58 :: (natDigits vB.length ++ 62 :: (vB ++ rest))) := by
    simp [rawTagBlock, List.append_assoc]
  obtain ⟨hdv, hdd, hdne⟩ := natDigits_spec vB.length
  have hmt := matchTag_block nB (natDigits vB.length) (vB ++ rest) hne hbytes hdne hdd
  rw [hassoc]
  simp only [parseLoop, tagScan, hmt]
  rw [hdv]
  rw [if_pos (by simp)]
  rw [List.take_left, List.drop_left]

/-- A leading tag header whose declared length exceeds the remaining data
stops the loop: the dictionary is returned as it stands. -/
theorem parseLoop_truncated (fuel : Nat) (nB dB extra : List Nat) (d : Record)
    (hne : nB ≠ []) (hbytes : ∀ b ∈ nB, ¬(b = 58 ∨ b = 62))
    (hd : dB ≠ []) (hdig : ∀ b ∈ dB, isDigitByte b = true)
    (hlen : extra.length < natOfDigits dB) :
    parseLoop (fuel + 1) (rawTagHeader nB dB ++ extra) d = d := by
  have hassoc : rawTagHeader nB dB ++ extra =
      60 :: (nB ++ 58 :: (dB ++ 62 :: extra)) := by
    simp [rawTagHeader, List.append_assoc]
  have hmt := matchTag_block nB dB extra hne hbytes hd hdig
  rw [hassoc]
  simp only [parseLoop, tagScan, hmt]
  rw [if_neg (by omega)]

/-- Python dict assignment with a fresh key appends. -/
theorem dset_fresh (d : Record) (k v : String) (h : ∀ q ∈ d, q.1 ≠ k) :
    dset d k v = d ++ [(k, v)] := by
  have hc : d.any (fun p => p.1 = k) = false := by
    rw [List.any_eq_false]
    intro q hq
    simpa using h q hq
  simp [dset, hc]

/-- The loop decodes a run of complete blocks in order, appending each
fresh tag to the dictionary and spending one fuel unit per block. -/
theorem parseLoop_rawBlocks :
    ∀ (tags : List (List Nat × List Nat)) (fuel : Nat) (rem : List Nat) (d : Record),
    tags.length ≤ fuel →
    (∀ p ∈ tags, wfNameBytes p.1) →
    (tags.map (fun p => tagNameOf p.1)).Nodup →
    (∀ p ∈ tags, ∀ q ∈ d, q.1 ≠ tagNameOf p.1) →
    parseLoop fuel (rawBlocks tags ++ rem) d =
      parseLoop (fuel - tags.length) rem
        (d ++ tags.map (fun p => (tagNameOf p.1, decodeValue p.2))) := by
  intro tags
  induction tags with
  | nil =>
    intro fuel rem d _ _ _ _
    simp [rawBlocks]
  | cons p ts ih =>
    intro fuel rem d hfuel hwf hnodup hfresh
    obtain ⟨nB, vB⟩ := p
    simp only [List.map_cons, List.nodup_cons, List.mem_map] at hnodup
    obtain ⟨hnotin, hnodup2⟩ := hnodup
    cases fuel with
    | zero => exact absurd hfuel (by simp)
    | succ f =>
      have hwfp := hwf (nB, vB) (List.mem_cons_self _ _)
      have hblock : rawBlocks ((nB, vB) :: ts) ++ rem =
          rawTagBlock nB vB ++ (rawBlocks ts ++ rem) := by
        simp [rawBlocks, List.append_assoc]
      rw [hblock]
      rw [parseLoop_block_step f nB vB (rawBlocks ts ++ rem) d hwfp.1 hwfp.2]
      rw [dset_fresh d (tagNameOf nB) (decodeValue vB)
        (hfresh (nB, vB) (List.mem_cons_self _ _))]
      rw [ih f rem (d ++ [(tagNameOf nB, decodeValue vB)])
        (by simp only [List.length_cons] at hfuel; omega)
        (fun q hq => hwf q (List.mem_cons_of_mem _ hq)) hnodup2 ?_]
      · simp only [List.length_cons, List.map_cons]
        congr 1
        · omega
        · simp [List.append_assoc]
      · intro q hq e he
        rcases List.mem_append.mp he with he | he
        · exact hfresh q (List.mem_cons_of_mem _ hq) e he
        · simp only [List.mem_singleton] at he
          subst he
          intro hcontra
          exact hnotin ⟨q, hq, hcontra.symm⟩

/-- Each block contributes at least one byte. -/
theorem rawBlocks_length_ge (tags : List (List Nat × List Nat)) :
    tags.length ≤ (rawBlocks tags).length := by
  induction tags with
  | nil => simp [rawBlocks]
  | cons p ts ih =>
    simp only [rawBlocks, List.map_cons, List.flatten_cons, List.length_append,
      List.length_cons]
    have : 1 ≤ (rawTagBlock p.1 p.2).length := by
      simp [rawTagBlock]
    simp only [rawBlocks] at ih
    omega

/-- C6.  For a raw record span made of complete well-formed tag blocks
followed by a tag header whose declared length exceeds the remaining
data, parsing stops at that header: every previously completed tag is
kept and the partial record is yielded (no error value exists in this
code path), and when zero complete blocks precede the truncated header
the span yields nothing at all. -/
theorem c6_truncated_tag (fn : String) (tags : List (List Nat × List Nat))
    (nB dB extra : List Nat)
    (hwf : ∀ p ∈ tags, wfNameBytes p.1)
    (hnodup : (tags.map (fun p => tagNameOf p.1)).Nodup)
    (hnp : ∀ p ∈ tags, tagNameOf p.1 ≠ "_SOURCE_FILE")
    (hn : wfNameBytes nB)
    (hd : dB ≠ []) (hdig : ∀ b ∈ dB, isDigitByte b = true)
    (hlen : extra.length < natOfDigits dB) :
    parse_single_record fn (rawBlocks tags ++ (rawTagHeader nB dB ++ extra)) =
      if tags = [] then none
      else some (("_SOURCE_FILE", fn) ::
        tags.map (fun p => (tagNameOf p.1, decodeValue p.2))) := by
  have h60 : (60 : Nat) ∈ rawBlocks tags ++ (rawTagHeader nB dB ++ extra) := by
    apply List.mem_append.mpr
    right
    apply List.mem_append.mpr
    left
    exact List.mem_cons_self _ _
  have hnotblank :
      ¬((rawBlocks tags ++ (rawTagHeader nB dB ++ extra)).all isSpaceByte = true) := by
    intro hall
    have := List.all_eq_true.mp hall 60 h60
    simp [isSpaceByte] at this
  unfold parse_single_record
  rw [if_neg hnotblank]
  have hblen := rawBlocks_length_ge tags
  have hn1 : 1 ≤ nB.length := List.length_pos.mpr hn.1
  have hd1 : 1 ≤ dB.length := List.length_pos.mpr hd
  have hhlen : 3 ≤ (rawTagHeader nB dB).length := by
    simp only [rawTagHeader, List.length_cons, List.length_append]
    omega
  have hfuel : tags.length ≤ (rawBlocks tags ++ (rawTagHeader nB dB ++ extra)).length := by
    simp only [List.length_append]
    omega
  rw [parseLoop_rawBlocks tags _ (rawTagHeader nB dB ++ extra) [("_SOURCE_FILE", fn)]
    hfuel hwf hnodup ?fresh]
  case fresh =>
    intro p hp q hq
    simp only [List.mem_singleton] at hq
    subst hq
    exact fun he => hnp p hp he.symm
  have hrem : 1 ≤ (rawBlocks tags ++ (rawTagHeader nB dB ++ extra)).length - tags.length := by
    simp only [List.length_append]
    omega
  obtain ⟨k, hk⟩ : ∃ k,
      (rawBlocks tags ++ (rawTagHeader nB dB ++ extra)).length - tags.length = k + 1 :=
    ⟨(rawBlocks tags ++ (rawTagHeader nB dB ++ extra)).length - tags.length - 1, by
      simp only [List.length_append] at hrem ⊢
      omega⟩
  rw [hk]
  rw [parseLoop_truncated k nB dB extra _ hn.1 hn.2 hd hdig hlen]
  by_cases htags : tags = []
  · subst htags
    simp
  · rw [if_neg htags]
    have hlen2 : 1 < (([("_SOURCE_FILE", fn)] : Record) ++
        tags.map (fun p => (tagNameOf p.1, decodeValue p.2))).length := by
      simp only [List.length_append, List.length_map, List.length_singleton]
      have : tags.length ≠ 0 := by simpa using htags
      omega
    rw [if_pos hlen2]
    simp [List.singleton_append]

/-- Witness for C6: `<CALL:4>W1AW<NOTE:10>ab` keeps the complete `CALL`
tag and stops at the truncated `NOTE` header, while `<NOTE:10>ab` alone
yields nothing. -/
theorem c6_truncated_tag_witness :
    (∀ p ∈ [([67, 65, 76, 76], [87, 49, 65, 87])], wfNameBytes p.1) ∧
    ([4].length < natOfDigits [49, 48] ∧
      parse_single_record "f.adi"
        (rawBlocks [([67, 65, 76, 76], [87, 49, 65, 87])] ++
          (rawTagHeader [78, 79, 84, 69] [49, 48] ++ [97, 98])) =
        some [("_SOURCE_FILE", "f.adi"), ("CALL", "W1AW")]) ∧
      parse_single_record "f.adi"
        (rawBlocks [] ++ (rawTagHeader [78, 79, 84, 69] [49, 48] ++ [97, 98])) = none := by
  have h1 := c6_truncated_tag "f.adi" [([67, 65, 76, 76], [87, 49, 65, 87])]
    [78, 79, 84, 69] [49, 48] [97, 98]
    (by decide) (by decide) (by decide) (by decide) (by decide) (by decide) (by decide)
  have h2 := c6_truncated_tag "f.adi" [] [78, 79, 84, 69] [49, 48] [97, 98]
    (by decide) (by decide) (by decide) (by decide) (by decide) (by decide) (by decide)
  refine ⟨by decide, ⟨by decide, ?_⟩, ?_⟩
  · rw [h1]
    decide
  · rw [h2]
    simp


/-- `findSub` returns `none` exactly when the pattern occurs at no position. -/
theorem findSub_none_iff (l pat : List Nat) :
    findSub l pat = none ↔ ∀ i, ¬ pat.IsPrefix (l.drop i) := by
  induction l with
  | nil =>
    simp only [findSub]
    constructor
    · intro h i
      split at h
      · exact absurd h (by simp)
      · rename_i hnp
        intro hp
        exact hnp (List.isPrefixOf_iff_prefix.mpr (by simpa using hp))
    · intro h
      split
      · rename_i hp
        exact absurd (List.isPrefixOf_iff_prefix.mp hp) (by simpa using h 0)
      · rfl
  | cons b t ih =>
    simp only [findSub]
    constructor
    · intro h i
      split at h
      · exact absurd h (by simp)
      · rename_i hnp
        match i with
        | 0 =>
          intro hp
          exact hnp (List.isPrefixOf_iff_prefix.mpr (by simpa using hp))
        | i + 1 =>
          simp only [List.drop_succ_cons]
          have := (ih.mp (by
            cases hf : findSub t pat with
            | none => rfl
            | some x => rw [hf] at h; simp at h)) i
          exact this
    · intro h
      split
      · rename_i hp
        exact absurd (List.isPrefixOf_iff_prefix.mp hp) (by simpa using h 0)
      · have : findSub t pat = none := ih.mpr (fun i => by simpa using h (i + 1))
        rw [this]
        rfl



/-- `findSub` returns the first position at which the pattern occurs. -/
theorem findSub_some_intro (l pat : List Nat) (i : Nat)
    (hp : pat.IsPrefix (l.drop i)) (hmin : ∀ j, j < i → ¬ pat.IsPrefix (l.drop j)) :
    findSub l pat = some i := by
  induction l generalizing i with
  | nil =>
    match i with
    | 0 =>
      simp only [findSub]
      rw [if_pos ( List.isPrefixOf_iff_prefix.mpr (by simpa using hp))]
    | i + 1 =>
      simp only [List.drop_nil] at hp
      have h0 : ¬ pat.IsPrefix (([] : List Nat).drop 0) := hmin 0 (by omega)
      simp only [List.drop_nil] at h0
      exact absurd hp h0
  | cons b t ih =>
    match i with
    | 0 =>
      simp only [findSub]
      rw [if_pos ( List.isPrefixOf_iff_prefix.mpr (by simpa using hp))]
    | i + 1 =>
      have h0 := hmin 0 (by omega)
      simp only [List.drop_zero] at h0
      simp only [findSub]
      rw [if_neg (fun hc => h0 ( List.isPrefixOf_iff_prefix.mp hc))]
      have : findSub t pat = some i := by
        apply ih
        · simpa using hp
        · intro j hj
          have := hmin (j + 1) (by omega)
          simpa using this
      rw [this]
      rfl

/-- A successful `findSub` is an occurrence, and the least one. -/
theorem findSub_some_pref (l pat : List Nat) (i : Nat) (h : findSub l pat = some i) :
    pat.IsPrefix (l.drop i) ∧ ∀ j, j < i → ¬ pat.IsPrefix (l.drop j) := by
  induction l generalizing i with
  | nil =>
    simp only [findSub] at h
    split at h
    · rename_i hp
      simp only [Option.some_inj] at h
      subst h
      exact ⟨by simpa using List.isPrefixOf_iff_prefix.mp hp, fun j hj => by omega⟩
    · exact absurd h (by simp)
  | cons b t ih =>
    simp only [findSub] at h
    split at h
    · rename_i hp
      simp only [Option.some_inj] at h
      subst h
      exact ⟨by simpa using List.isPrefixOf_iff_prefix.mp hp, fun j hj => by omega⟩
    · rename_i hnp
      cases hf : findSub t pat with
      | none => rw [hf] at h; simp at h
      | some x =>
        rw [hf] at h
        have hi : i = x + 1 := by
          simpa using h.symm
        obtain ⟨hp, hmin⟩ := ih x hf
        subst hi
        refine ⟨by simpa using hp, ?_⟩
        intro j hj
        match j with
        | 0 =>
          intro hc
          exact hnp ( List.isPrefixOf_iff_prefix.mpr (by simpa using hc))
        | j + 1 =>
          simp only [List.drop_succ_cons]
          exact hmin j (by omega)



/-- A pattern absent from a list is absent from every prefix. -/
theorem findSub_take_none (l pat : List Nat) (k : Nat) (h : findSub l pat = none) :
    findSub (l.take k) pat = none := by
  rw [findSub_none_iff] at h ⊢
  intro i hp
  apply h i
  have heq : (l.take k).drop i = (l.drop i).take (k - i) := by
    rw [List.drop_take]
  rw [heq] at hp
  exact hp.trans ( List.take_prefix _ _)

/-- While the header terminator never appears and the buffer stays below
the forcing threshold, the chunk loop only accumulates: the whole input
ends up in the buffer and is parsed as one final record at exhaustion. -/
theorem streamLoop_no_header (fn : String) :
    ∀ (fuel : Nat) (remaining buffer : List Nat),
    remaining.length < fuel →
    findSub (lowerBytes (buffer ++ remaining)) eohBytes = none →
    (buffer ++ remaining).length ≤ headerForceLimit →
    streamLoop fn chunkSize fuel remaining buffer false =
      if (buffer ++ remaining).all isSpaceByte then []
      else (parse_single_record fn (buffer ++ remaining)).toList := by
  intro fuel
  induction fuel with
  | zero => intro remaining buffer h _ _; omega
  | succ f ih =>
    intro remaining buffer hlen hnoeoh hsize
    by_cases hempty : remaining.take chunkSize = []
    · have hrem : remaining = [] := by
        rcases List.take_eq_nil_iff.mp hempty with h | h
        · exact absurd h (by simp [chunkSize])
        · exact h
      subst hrem
      simp [streamLoop]
    · have hremne : remaining ≠ [] := by
        intro hc
        subst hc
        simp at hempty
      have hbuf : buffer ++ remaining.take chunkSize =
          (buffer ++ remaining).take (buffer.length + chunkSize) := by
        rw [List.take_append_eq_append_take]
        congr 1
        · rw [List.take_of_length_le (by omega)]
        · congr 1
          omega
      have hfind : findSub (lowerBytes (buffer ++ remaining.take chunkSize)) eohBytes
          = none := by
        rw [hbuf]
        unfold lowerBytes
        rw [List.map_take]
        exact findSub_take_none _ _ _ hnoeoh
      have hbuflen : (buffer ++ remaining.take chunkSize).length ≤ headerForceLimit := by
        have h1 : (remaining.take chunkSize).length ≤ remaining.length := by
          simp [List.length_take]
        have h2 : (buffer ++ remaining.take chunkSize).length ≤
            (buffer ++ remaining).length := by
          simp only [List.length_append]
          omega
        omega
      simp only [streamLoop]
      rw [if_neg (by simpa using hempty)]
      rw [hfind]
      dsimp only
      have hcond : ¬ headerForceLimit < (buffer ++ List.take chunkSize remaining).length := by
        omega
      rw [if_neg hcond]
      rw [ih (remaining.drop chunkSize) (buffer ++ remaining.take chunkSize)
        ?hfuel ?hnoeoh2 ?hsize2]
      · rw [List.append_assoc, List.take_append_drop]
        simp
      case hfuel =>
        have h1 : 1 ≤ chunkSize := by simp [chunkSize]
        have h2 : 1 ≤ remaining.length := List.length_pos.mpr hremne
        simp only [List.length_drop]
        omega
      case hnoeoh2 =>
        rw [List.append_assoc, List.take_append_drop]
        exact hnoeoh
      case hsize2 =>
        rw [List.append_assoc, List.take_append_drop]
        exact hsize

/-- C10.  A source with no case-insensitive `<eoh>` anywhere and total
size at most the 10 MiB forcing threshold never reaches the
record-splitting loop: `stream_records` yields at most the single record
obtained by decoding the entire file as one raw span, so tags from all
`<eor>`-separated spans are merged into one dictionary, later
occurrences of a tag overwriting earlier ones (see the witness). -/
theorem c10_headerless_merge (fn : String) (file : List Nat)
    (hnoeoh : hasSub (lowerBytes file) eohBytes = false)
    (hsize : file.length ≤ headerForceLimit) :
    stream_records fn file = (parse_single_record fn file).toList := by
  have hfind : findSub (lowerBytes file) eohBytes = none := by
    unfold hasSub at hnoeoh
    exact Option.not_isSome_iff_eq_none.mp (by simp [hnoeoh])
  unfold stream_records
  rw [streamLoop_no_header fn (file.length + 1) file [] (by omega)
    (by simpa using hfind) (by simpa using hsize)]
  by_cases hsp : file.all isSpaceByte
  · rw [if_pos (by simpa using hsp)]
    unfold parse_single_record
    rw [if_pos hsp]
    rfl
  · rw [if_neg (by simpa using hsp)]
    simp

/-- Witness for C10: a headerless file with two `<eor>`-separated spans
both carrying a `CALL` tag produces one merged record in which the later
`CALL` value overwrote the earlier one. -/
theorem c10_headerless_merge_witness :
    hasSub (lowerBytes (("<CALL:4>ABCD<eor><CALL:3>XYZ<eor>").data.map Char.toNat))
        eohBytes = false ∧
      (("<CALL:4>ABCD<eor><CALL:3>XYZ<eor>").data.map Char.toNat).length ≤
        headerForceLimit ∧
      stream_records "f.adi" (("<CALL:4>ABCD<eor><CALL:3>XYZ<eor>").data.map Char.toNat) =
        [[("_SOURCE_FILE", "f.adi"), ("CALL", "XYZ")]] := by
  refine ⟨by decide, by decide, ?_⟩
  rw [c10_headerless_merge "f.adi" _ (by decide) (by decide)]
  decide

theorem gbEncChar_ascii (c : Char) (h : c.toNat < 128) : gbEncChar c = [c.toNat] := by
  simp [gbEncChar, h]

theorem encodeStr_data (s : String) :
    encodeStr s = (s.data.map gbEncChar).flatten := by
  unfold encodeStr
  induction s.data with
  | nil => rfl
  | cons c t ih => simp [List.foldr_cons, ih]

theorem encodeStr_append (a b : String) :
    encodeStr (a ++ b) = encodeStr a ++ encodeStr b := by
  rw [encodeStr_data, encodeStr_data, encodeStr_data]
  rw [String.data_append, List.map_append, List.flatten_append]

theorem flatten_map_gbEnc_ascii (l : List Char) (h : ∀ c ∈ l, c.toNat < 128) :
    (l.map gbEncChar).flatten = l.map Char.toNat := by
  induction l with
  | nil => rfl
  | cons c t ih =>
    simp only [List.map_cons, List.flatten_cons]
    rw [gbEncChar_ascii c (h c (List.mem_cons_self _ _)),
      ih (fun d hd => h d (List.mem_cons_of_mem _ hd))]
    rfl

theorem encodeStr_ascii (s : String) (h : ∀ c ∈ s.data, c.toNat < 128) :
    encodeStr s = strBytes s := by
  rw [encodeStr_data]
  exact flatten_map_gbEnc_ascii s.data h

theorem char_toNat_ofNat (n : Nat) (h : n < 128) : (Char.ofNat n).toNat = n := by
  have hv : n.isValidChar := Or.inl (by omega)
  simp [Char.ofNat, hv]
  rfl

theorem digit_byte_range {b : Nat} (h : isDigitByte b = true) : 48 ≤ b ∧ b ≤ 57 := by
  unfold isDigitByte at h
  exact of_decide_eq_true h

theorem natRepr_bytes (n : Nat) : encodeStr (natRepr n) = natDigits n := by
  obtain ⟨_, hd, _⟩ := natDigits_spec n
  unfold natRepr
  rw [encodeStr_ascii]
  · unfold strBytes
    simp only [List.map_map]
    calc (natDigits n).map ((Char.toNat ∘ fun b => Char.ofNat b))
        = (natDigits n).map id := by
          apply List.map_congr_left
          intro b hb
          obtain ⟨h1, h2⟩ := digit_byte_range (hd b hb)
          exact char_toNat_ofNat b (by omega)
      _ = natDigits n := List.map_id _
  · intro c hc
    simp only [List.mem_map] at hc
    obtain ⟨b, hb, hbc⟩ := hc
    obtain ⟨h1, h2⟩ := digit_byte_range (hd b hb)
    subst hbc
    rw [char_toNat_ofNat b (by omega)]
    omega

theorem utf8DecLoop_ascii : ∀ (fuel : Nat) (l : List Nat), l.length ≤ fuel →
    (∀ b ∈ l, b < 128) → utf8DecLoop fuel l = some l := by
  intro fuel
  induction fuel with
  | zero =>
    intro l hl _
    match l with
    | [] => rfl
  | succ f ih =>
    intro l hl h
    match l with
    | [] => rfl
    | b :: t =>
      have hb : b < 128 := h b (List.mem_cons_self _ _)
      have hstep : utf8Step (b :: t) = some (b, t) := by
        simp only [utf8Step, if_pos hb]
      simp only [utf8DecLoop, hstep]
      rw [ih t (by simpa using hl) (fun x hx => h x (List.mem_cons_of_mem _ hx))]
      rfl

theorem utf8Dec_ascii (l : List Nat) (h : ∀ b ∈ l, b < 128) :
    utf8Dec l = some l :=
  utf8DecLoop_ascii l.length l (by omega) h

theorem decodeValue_strBytes (v : String) (h : ∀ c ∈ v.data, c.toNat < 128) :
    decodeValue (strBytes v) = v := by
  unfold decodeValue strBytes
  rw [utf8Dec_ascii _ (by
    intro b hb
    simp only [List.mem_map] at hb
    obtain ⟨c, hc, rfl⟩ := hb
    exact h c hc)]
  unfold charsOf
  simp only [List.map_map]
  have hmap : ∀ c ∈ v.data, (Char.ofNat ∘ Char.toNat) c = id c := by
    intro c hc
    simp only [Function.comp, id]
    exact Char.ofNat_toNat c
  rw [List.map_congr_left hmap, List.map_id]

theorem tagNameOf_strBytes (n : String) (hwf : wfName n) :
    tagNameOf (strBytes n) = n := by
  obtain ⟨-, -, halpha⟩ := hwf
  unfold tagNameOf strBytes
  simp only [List.all_eq_true] at halpha
  have hfilt : (n.data.map Char.toNat).filter (fun b => b < 128) = n.data.map Char.toNat := by
    rw [List.filter_eq_self]
    intro b hb
    simp only [List.mem_map] at hb
    obtain ⟨c, hc, rfl⟩ := hb
    have := halpha c hc
    simp only [wfNameByte] at this
    simp at this ⊢
    omega
  rw [hfilt]
  simp only [List.map_map]
  have hmap : ∀ c ∈ n.data, (fun b => Char.ofNat (upperByte b)) c.toNat = id c := by
    intro c hc
    have := halpha c hc
    simp only [wfNameByte, decide_eq_true_eq] at this
    have hup : upperByte c.toNat = c.toNat := by
      unfold upperByte
      rw [if_neg]
      omega
    simp only [hup, id]
    exact Char.ofNat_toNat c
  apply String.ext
  have h2 : List.map ((fun b => Char.ofNat (upperByte b)) ∘ Char.toNat) n.data =
      List.map id n.data := List.map_congr_left (fun c hc => hmap c hc)
  show List.map ((fun b => Char.ofNat (upperByte b)) ∘ Char.toNat) n.data = n.data
  rw [h2, List.map_id]

end LogMerge

namespace LogMerge

theorem matchTag_ne60 (b : Nat) (t : List Nat) (hb : b ≠ 60) :
    matchTag (b :: t) = none := by
  unfold matchTag
  split
  · rename_i heq
    injection heq with h1 h2
    exact absurd h1 hb
  · rfl

theorem tagScan_skip (skip : List Nat) (l : List Nat) (h : ∀ b ∈ skip, b ≠ 60) :
    tagScan (skip ++ l) = tagScan l := by
  induction skip with
  | nil => rfl
  | cons b t ih =>
    have hb : b ≠ 60 := h b (List.mem_cons_self _ _)
    simp only [List.cons_append, tagScan]
    rw [show t.append l = t ++ l from rfl, matchTag_ne60 b (t ++ l) hb]
    exact ih (fun x hx => h x (List.mem_cons_of_mem _ hx))

theorem parseLoop_nil (fuel : Nat) (d : Record) : parseLoop fuel [] d = d := by
  cases fuel <;> rfl

theorem tagScan_nil : tagScan [] = none := rfl

theorem parseLoop_skip (fuel : Nat) (skip l : List Nat) (d : Record)
    (h : ∀ b ∈ skip, b ≠ 60) :
    parseLoop fuel (skip ++ l) d = parseLoop fuel l d := by
  cases fuel with
  | zero => rfl
  | succ f =>
    match hs : skip with
    | [] => rfl
    | b :: t =>
      match hl : l with
      | [] =>
        simp only [List.append_nil]
        have hscan : tagScan (b :: t) = none := by
          have := tagScan_skip (b :: t) [] (hs ▸ h)
          simpa using this
        simp only [parseLoop, hscan]
      | c :: u =>
        have hscan := tagScan_skip (b :: t) (c :: u) (hs ▸ h)
        simp only [List.cons_append] at hscan ⊢
        simp only [parseLoop]
        rw [show tagScan (b :: (t ++ c :: u)) = tagScan (c :: u) from hscan]

end LogMerge

namespace LogMerge

theorem parseLoop_rawBlocksSp :
    ∀ (tags : List (List Nat × List Nat)) (fuel : Nat) (rem : List Nat) (d : Record),
    tags.length ≤ fuel →
    (∀ p ∈ tags, wfNameBytes p.1) →
    (tags.map (fun p => tagNameOf p.1)).Nodup →
    (∀ p ∈ tags, ∀ q ∈ d, q.1 ≠ tagNameOf p.1) →
    parseLoop fuel (rawBlocksSp tags ++ rem) d =
      parseLoop (fuel - tags.length) rem
        (d ++ tags.map (fun p => (tagNameOf p.1, decodeValue p.2))) := by
  intro tags
  induction tags with
  | nil =>
    intro fuel rem d _ _ _ _
    simp [rawBlocksSp]
  | cons p ts ih =>
    intro fuel rem d hfuel hwf hnodup hfresh
    obtain ⟨nB, vB⟩ := p
    simp only [List.map_cons, List.nodup_cons, List.mem_map] at hnodup
    obtain ⟨hnotin, hnodup2⟩ := hnodup
    cases fuel with
    | zero => exact absurd hfuel (by simp)
    | succ f =>
      have hwfp := hwf (nB, vB) (List.mem_cons_self _ _)
      have hblock : rawBlocksSp ((nB, vB) :: ts) ++ rem =
          rawTagBlock nB vB ++ ([32] ++ (rawBlocksSp ts ++ rem)) := by
        simp [rawBlocksSp, List.append_assoc]
      rw [hblock]
      rw [parseLoop_block_step f nB vB ([32] ++ (rawBlocksSp ts ++ rem)) d hwfp.1 hwfp.2]
      rw [parseLoop_skip f [32] (rawBlocksSp ts ++ rem) _ (by simp)]
      rw [dset_fresh d (tagNameOf nB) (decodeValue vB)
        (hfresh (nB, vB) (List.mem_cons_self _ _))]
      rw [ih f rem (d ++ [(tagNameOf nB, decodeValue vB)])
        (by simp only [List.length_cons] at hfuel; omega)
        (fun q hq => hwf q (List.mem_cons_of_mem _ hq)) hnodup2 ?_]
      · simp only [List.length_cons, List.map_cons]
        congr 1
        · omega
        · simp [List.append_assoc]
      · intro q hq e he
        rcases List.mem_append.mp he with he | he
        · exact hfresh q (List.mem_cons_of_mem _ hq) e he
        · simp only [List.mem_singleton] at he
          subst he
          intro hcontra
          exact hnotin ⟨q, hq, hcontra.symm⟩

end LogMerge

namespace LogMerge

theorem wfName_ne_source (n : String) (hwf : wfName n) : n ≠ "_SOURCE_FILE" := by
  intro he
  subst he
  exact absurd hwf.2.1 (by decide)

theorem strBytes_wfNameBytes (n : String) (hwf : wfName n) :
    wfNameBytes (strBytes n) := by
  obtain ⟨hne, -, halpha⟩ := hwf
  simp only [List.all_eq_true] at halpha
  constructor
  · simp only [strBytes, ne_eq, List.map_eq_nil_iff]
    intro hc
    exact hne (by
      have : n = String.mk [] := String.ext hc
      simpa using this)
  · intro b hb
    simp only [strBytes, List.mem_map] at hb
    obtain ⟨c, hc, rfl⟩ := hb
    have := halpha c hc
    simp only [wfNameByte, decide_eq_true_eq] at this
    omega

theorem rawBlocksSp_length_ge (tags : List (List Nat × List Nat)) :
    tags.length ≤ (rawBlocksSp tags).length := by
  induction tags with
  | nil => simp [rawBlocksSp]
  | cons p ts ih =>
    simp only [rawBlocksSp, List.map_cons, List.flatten_cons, List.length_append,
      List.length_cons]
    have h1 : 1 ≤ (rawTagBlock p.1 p.2 ++ [32]).length := by
      simp [rawTagBlock]
    simp only [rawBlocksSp] at ih
    simp only [List.length_append] at h1 ⊢
    omega

theorem parse_record_span (fn : String) (tags : List (String × String))
    (htne : tags ≠ [])
    (hwf : ∀ p ∈ tags, wfName p.1 ∧ wfValue p.2)
    (hnodup : (tags.map Prod.fst).Nodup) :
    parse_single_record fn
      ([13, 10] ++ rawBlocksSp (tags.map (fun p => (strBytes p.1, strBytes p.2)))) =
      some (("_SOURCE_FILE", fn) :: tags) := by
  set tB := tags.map (fun p => (strBytes p.1, strBytes p.2)) with htB
  have hconv : ∀ q ∈ tB, ∃ p ∈ tags, q = (strBytes p.1, strBytes p.2) := by
    intro q hq
    rw [htB] at hq
    simp only [List.mem_map] at hq
    obtain ⟨p, hp, rfl⟩ := hq
    exact ⟨p, hp, rfl⟩
  have hnames : ∀ p ∈ tags, tagNameOf (strBytes p.1) = p.1 := by
    intro p hp
    exact tagNameOf_strBytes p.1 (hwf p hp).1
  have hdecmap : tB.map (fun q => (tagNameOf q.1, decodeValue q.2)) = tags := by
    rw [htB, List.map_map]
    calc tags.map ((fun q : List Nat × List Nat => (tagNameOf q.1, decodeValue q.2)) ∘
          (fun p : String × String => (strBytes p.1, strBytes p.2)))
        = tags.map id := by
          apply List.map_congr_left
          intro p hp
          obtain ⟨hn, hv⟩ := hwf p hp
          simp only [Function.comp, id]
          rw [tagNameOf_strBytes p.1 hn, decodeValue_strBytes p.2 (by
            have := hv.1
            simp only [List.all_eq_true, decide_eq_true_eq] at this
            exact this)]
      _ = tags := List.map_id _
  have hnodupB : (tB.map (fun q => tagNameOf q.1)).Nodup := by
    have heqm : tB.map (fun q => tagNameOf q.1) = tags.map Prod.fst := by
      rw [htB, List.map_map]
      apply List.map_congr_left
      intro p hp
      exact hnames p hp
    rw [heqm]
    exact hnodup
  have hwfB : ∀ q ∈ tB, wfNameBytes q.1 := by
    intro q hq
    obtain ⟨p, hp, rfl⟩ := hconv q hq
    exact strBytes_wfNameBytes p.1 (hwf p hp).1
  obtain ⟨t0, ts0, hts⟩ : ∃ t0 ts0, tags = t0 :: ts0 := by
    cases tags with
    | nil => exact absurd rfl htne
    | cons a b => exact ⟨a, b, rfl⟩
  have h60 : (60 : Nat) ∈ [13, 10] ++ rawBlocksSp tB := by
    apply List.mem_append.mpr
    right
    rw [htB, hts]
    simp only [List.map_cons, rawBlocksSp, List.flatten_cons]
    apply List.mem_append.mpr
    left
    simp [rawTagBlock]
  have hnotblank : ¬(([13, 10] ++ rawBlocksSp tB).all isSpaceByte = true) := by
    intro hall
    have := List.all_eq_true.mp hall 60 h60
    simp [isSpaceByte] at this
  unfold parse_single_record
  rw [if_neg hnotblank]
  rw [parseLoop_skip _ [13, 10] _ _ (by simp)]
  have hlen : tB.length ≤ ([13, 10] ++ rawBlocksSp tB).length := by
    have := rawBlocksSp_length_ge tB
    simp only [List.length_append]
    omega
  have hfresh : ∀ q ∈ tB, ∀ e ∈ ([("_SOURCE_FILE", fn)] : Record),
      e.1 ≠ tagNameOf q.1 := by
    intro q hq e he
    simp only [List.mem_singleton] at he
    subst he
    obtain ⟨p, hp, rfl⟩ := hconv q hq
    rw [hnames p hp]
    exact fun hc => wfName_ne_source p.1 (hwf p hp).1 hc.symm
  have happ := parseLoop_rawBlocksSp tB (([13, 10] ++ rawBlocksSp tB).length) []
    [("_SOURCE_FILE", fn)] hlen hwfB hnodupB hfresh
  simp only [List.append_nil] at happ
  rw [happ, parseLoop_nil, hdecmap]
  rw [if_pos (by
    simp only [List.singleton_append, List.length_cons]
    rw [hts]
    simp)]
  rw [List.singleton_append]

end LogMerge

namespace LogMerge

theorem wfName_ascii (n : String) (hwf : wfName n) : ∀ c ∈ n.data, c.toNat < 128 := by
  intro c hc
  have := hwf.2.2
  simp only [List.all_eq_true] at this
  have h2 := this c hc
  simp only [wfNameByte, decide_eq_true_eq] at h2
  omega

theorem wfValue_ascii (v : String) (hwf : wfValue v) : ∀ c ∈ v.data, c.toNat < 128 := by
  intro c hc
  have := hwf.1
  simp only [List.all_eq_true, decide_eq_true_eq] at this
  exact this c hc

theorem chunk_bytes (n v : String) (hn : wfName n) (hv : wfValue v) :
    encodeStr (tagChunk (n, v)) = rawTagBlock (strBytes n) (strBytes v) ++ [32] := by
  unfold tagChunk
  simp only [encodeStr_append]
  rw [encodeStr_ascii n (wfName_ascii n hn), encodeStr_ascii v (wfValue_ascii v hv),
    natRepr_bytes]
  have h1 : encodeStr "<" = [60] := by decide
  have h2 : encodeStr ":" = [58] := by decide
  have h3 : encodeStr ">" = [62] := by decide
  have h4 : encodeStr " " = [32] := by decide
  rw [h1, h2, h3, h4]
  simp [rawTagBlock, List.append_assoc]

theorem encodeStr_chunks (tags : List (String × String))
    (hwf : ∀ p ∈ tags, wfName p.1 ∧ wfValue p.2) :
    encodeStr ((tags.map tagChunk).foldr (· ++ ·) "") =
      rawBlocksSp (tags.map (fun p => (strBytes p.1, strBytes p.2))) := by
  induction tags with
  | nil => decide
  | cons p ts ih =>
    obtain ⟨n, v⟩ := p
    simp only [List.map_cons, List.foldr_cons]
    rw [encodeStr_append]
    rw [chunk_bytes n v (hwf (n, v) (List.mem_cons_self _ _)).1
      (hwf (n, v) (List.mem_cons_self _ _)).2]
    rw [ih (fun q hq => hwf q (List.mem_cons_of_mem _ hq))]
    simp [rawBlocksSp]

theorem line_bytes (fn0 : String) (tags : List (String × String))
    (hwf : ∀ p ∈ tags, wfName p.1 ∧ wfValue p.2) :
    encodeStr (recLine (("_SOURCE_FILE", fn0) :: tags) ++ "<EOR>\r\n") =
      rawBlocksSp (tags.map (fun p => (strBytes p.1, strBytes p.2))) ++
        [60, 69, 79, 82, 62, 13, 10] := by
  rw [encodeStr_append]
  rw [recLine_eq_specLine]
  unfold specLine
  have hsrc : startsUnderscore "_SOURCE_FILE" = true := by decide
  rw [List.filter_cons_of_neg (by simp [hsrc])]
  rw [List.filter_eq_self.mpr (by
    intro p hp
    have := (hwf p hp).1.2.1
    simp [this])]
  rw [encodeStr_chunks tags hwf]
  have hterm : encodeStr ("<EOR>" ++ "\r\n") = [60, 69, 79, 82, 62, 13, 10] := by decide
  rw [show ("<EOR>\r\n" : String) = "<EOR>" ++ "\r\n" from by decide, hterm]

end LogMerge

namespace LogMerge

/-! ### C1: clean segments and first occurrences of the record terminator -/

theorem lowerBytes_append (a b : List Nat) :
    lowerBytes (a ++ b) = lowerBytes a ++ lowerBytes b := by
  simp [lowerBytes]

theorem lowerBytes_length (l : List Nat) : (lowerBytes l).length = l.length := by
  simp [lowerBytes]

/-- Positions covered by a prefix agree with the pattern. -/
theorem prefix_getElem {pat l : List Nat} (hp : pat.IsPrefix l) (k : Nat)
    (hk : k < pat.length) : l[k]? = pat[k]? := by
  obtain ⟨t, rfl⟩ := hp
  rw [List.getElem?_append_left hk]

/-- A pattern that fits inside the left part of an append is a prefix of it. -/
theorem prefix_of_append_left {pat x y : List Nat} (h : pat.IsPrefix (x ++ y))
    (hlen : pat.length ≤ x.length) : pat.IsPrefix x := by
  rw [List.prefix_iff_eq_take] at h ⊢
  rw [List.take_append_eq_append_take] at h
  rw [Nat.sub_eq_zero_of_le hlen] at h
  simpa using h

theorem CleanSeg_append {A B : List Nat} (hA : CleanSeg A) (hB : CleanSeg B) :
    CleanSeg (A ++ B) := by
  intro T j hj
  rw [List.append_assoc]
  by_cases hji : j < A.length
  · exact hA (B ++ T) j hji
  · intro hp
    have hjb : j - A.length < B.length := by
      simp only [List.length_append] at hj
      omega
    apply hB T (j - A.length) hjb
    have hd : (A ++ (B ++ T)).drop j = (B ++ T).drop (j - A.length) := by
      rw [List.drop_append_eq_append_drop, List.drop_eq_nil_of_le (by omega)]
      simp
    rwa [hd] at hp

/-- A segment without the byte `<` cannot start a record terminator. -/
theorem CleanSeg_no60 {A : List Nat} (h : ∀ b ∈ A, b ≠ 60) : CleanSeg A := by
  intro T j hj hp
  have h0 := prefix_getElem hp 0 (by simp [eorBytes])
  rw [List.getElem?_drop] at h0
  have hj' : j + 0 < A.length := by omega
  rw [List.getElem?_append_left hj', List.getElem?_eq_getElem hj'] at h0
  have h60 : A[j + 0] = 60 := by
    have he : eorBytes[(0 : Nat)]? = some 60 := rfl
    rw [he] at h0
    exact Option.some_inj.mp h0
  exact h _ (List.getElem_mem hj') h60

theorem wfNameByte_lower {b : Nat} (h : wfNameByte b = true) :
    lowerByte b ≠ 60 ∧ lowerByte b ≠ 62 := by
  simp only [wfNameByte, Bool.or_eq_true, decide_eq_true_eq] at h
  unfold lowerByte
  split <;> omega

theorem natDigitsAux_digits :
    ∀ (fuel n : Nat), ∀ b ∈ natDigitsAux fuel n, 48 ≤ b ∧ b ≤ 57 := by
  intro fuel
  induction fuel with
  | zero => intro n b hb; simp [natDigitsAux] at hb
  | succ f ih =>
    intro n b hb
    unfold natDigitsAux at hb
    by_cases hn : n < 10
    · rw [if_pos hn] at hb
      simp at hb
      omega
    · rw [if_neg hn] at hb
      rcases List.mem_append.mp hb with h1 | h1
      · exact ih _ b h1
      · simp at h1
        have : n % 10 < 10 := Nat.mod_lt _ (by omega)
        omega

/-- The head `<name:` of a tag block cannot start a record terminator:
an occurrence would need `>` where the name or the `:` stands. -/
theorem cleanSeg_tagHead {nB : List Nat} (hne : nB ≠ [])
    (hn : ∀ b ∈ nB, wfNameByte b = true) :
    CleanSeg (60 :: lowerBytes nB ++ [58]) := by
  intro T j hj
  cases j with
  | succ j' =>
    have h60 : ∀ b ∈ lowerBytes nB ++ [58], b ≠ 60 := by
      intro b hb
      rcases List.mem_append.mp hb with hb | hb
      · simp only [lowerBytes, List.mem_map] at hb
        obtain ⟨a, ha, rfl⟩ := hb
        exact (wfNameByte_lower (hn a ha)).1
      · simp only [List.mem_singleton] at hb
        omega
    have hlt : j' < (lowerBytes nB ++ [58]).length := by
      simp only [List.length_cons, List.length_append, lowerBytes] at hj ⊢
      omega
    have := CleanSeg_no60 h60 T j' hlt
    simpa using this
  | zero =>
    intro hp
    obtain ⟨t, heq⟩ := hp
    simp only [List.drop_zero, List.cons_append] at heq
    cases nB with
    | nil => exact hne rfl
    | cons b1 r1 =>
      cases r1 with
      | nil => simp [eorBytes, lowerBytes] at heq
      | cons b2 r2 =>
        cases r2 with
        | nil => simp [eorBytes, lowerBytes] at heq
        | cons b3 r3 =>
          cases r3 with
          | nil => simp [eorBytes, lowerBytes] at heq
          | cons b4 r4 =>
            simp only [eorBytes, lowerBytes, List.map_cons, List.cons_append,
              List.cons.injEq] at heq
            have h4 : (62 : Nat) = lowerByte b4 := heq.2.2.2.2.1
            exact (wfNameByte_lower (hn b4 (by simp))).2 h4.symm

/-- A value free of the record terminator, closed by the space separator,
cannot start one either: the pattern has no byte `32`. -/
theorem cleanSeg_stop {A : List Nat} (hA : findSub A eorBytes = none) :
    CleanSeg (A ++ [32]) := by
  intro T j hj hp
  simp only [List.length_append, List.length_singleton] at hj
  by_cases hcase : j + 5 ≤ A.length
  · apply (findSub_none_iff A eorBytes).mp hA j
    rw [List.append_assoc] at hp
    have hd : (A ++ ([32] ++ T)).drop j = A.drop j ++ ([32] ++ T) := by
      rw [List.drop_append_eq_append_drop, Nat.sub_eq_zero_of_le (by omega),
        List.drop_zero]
    rw [hd] at hp
    exact prefix_of_append_left hp (by
      simp only [eorBytes, List.length_drop, List.length_cons, List.length_nil]
      omega)
  · have hk5 : A.length - j < 5 := by omega
    have hke := prefix_getElem hp (A.length - j) (by
      simp only [eorBytes, List.length_cons, List.length_nil]
      omega)
    rw [List.getElem?_drop] at hke
    have hidx : j + (A.length - j) = A.length := by omega
    rw [hidx] at hke
    have h32 : ((A ++ [32]) ++ T)[A.length]? = some 32 := by
      rw [List.append_assoc]
      rw [List.getElem?_append_right (le_refl _), Nat.sub_self]
      simp
    rw [h32] at hke
    set k := A.length - j with hkdef
    interval_cases k <;> simp [eorBytes] at hke

end LogMerge

namespace LogMerge


/-- The first occurrence inside `l` is still the first in `l ++ l'`. -/
theorem findSub_append_left (l l' pat : List Nat) (i : Nat)
    (h : findSub l pat = some i) (hpat : pat ≠ []) :
    findSub (l ++ l') pat = some i := by
  obtain ⟨hp, hmin⟩ := findSub_some_pref l pat i h
  have hplen : 1 ≤ pat.length := List.length_pos.mpr hpat
  have hfit : i + pat.length ≤ l.length := by
    have := hp.length_le
    simp only [List.length_drop] at this
    omega
  apply findSub_some_intro
  · have hd : (l ++ l').drop i = l.drop i ++ l' := by
      rw [List.drop_append_eq_append_drop, Nat.sub_eq_zero_of_le (by omega),
        List.drop_zero]
    rw [hd]
    exact hp.trans (List.prefix_append _ _)
  · intro j hj hc
    apply hmin j hj
    have hd : (l ++ l').drop j = l.drop j ++ l' := by
      rw [List.drop_append_eq_append_drop, Nat.sub_eq_zero_of_le (by omega),
        List.drop_zero]
    rw [hd] at hc
    exact prefix_of_append_left hc (by simp only [List.length_drop]; omega)

/-- Right after a clean segment, an explicit uppercase `<EOR>` is the first
occurrence of the terminator. -/
theorem findSub_eor_at {A : List Nat} (rest : List Nat)
    (hclean : CleanSeg (lowerBytes A)) :
    findSub (lowerBytes ((A ++ [60, 69, 79, 82, 62]) ++ rest)) eorBytes =
      some A.length := by
  rw [List.append_assoc, lowerBytes_append]
  apply findSub_some_intro
  · rw [show A.length = (lowerBytes A).length from (lowerBytes_length A).symm,
      List.drop_left]
    rw [lowerBytes_append]
    rw [show lowerBytes [60, 69, 79, 82, 62] = eorBytes from by decide]
    exact List.prefix_append _ _
  · intro j hj
    have hj' : j < (lowerBytes A).length := by
      rw [lowerBytes_length]
      omega
    exact hclean (lowerBytes ([60, 69, 79, 82, 62] ++ rest)) j hj'

theorem drainEor_nil (fn : String) (f : Nat) : drainEor fn f [] = ([], []) := by
  cases f <;> rfl

/-- The occurrence index returned by `findSub` leaves the whole pattern
inside the buffer. -/
theorem findSub_lower_bound {buf : List Nat} {i : Nat}
    (h : findSub (lowerBytes buf) eorBytes = some i) : i + 5 ≤ buf.length := by
  have hp := (findSub_some_pref _ _ _ h).1
  have := hp.length_le
  simp only [List.length_drop, lowerBytes_length, eorBytes, List.length_cons,
    List.length_nil] at this
  omega

/-- Any fuel at least the buffer length gives the same result. -/
theorem drainEor_fuel_aux (fn : String) :
    ∀ (n f1 f2 : Nat) (buf : List Nat), buf.length ≤ n → buf.length ≤ f1 →
    buf.length ≤ f2 → drainEor fn f1 buf = drainEor fn f2 buf := by
  intro n
  induction n with
  | zero =>
    intro f1 f2 buf h0 _ _
    have hb : buf = [] := List.eq_nil_of_length_eq_zero (by omega)
    subst hb
    rw [drainEor_nil, drainEor_nil]
  | succ m ih =>
    intro f1 f2 buf hn h1 h2
    cases f1 with
    | zero =>
      have hb : buf = [] := List.eq_nil_of_length_eq_zero (by omega)
      subst hb
      rw [drainEor_nil, drainEor_nil]
    | succ a =>
      cases f2 with
      | zero =>
        have hb : buf = [] := List.eq_nil_of_length_eq_zero (by omega)
        subst hb
        rw [drainEor_nil, drainEor_nil]
      | succ b =>
        cases hfind : findSub (lowerBytes buf) eorBytes with
        | none =>
          simp only [drainEor]
          rw [hfind]
        | some i =>
          have hlen := findSub_lower_bound hfind
          simp only [drainEor]
          rw [hfind]
          dsimp only
          rw [ih a b (buf.drop (i + 5)) (by simp only [List.length_drop]; omega)
            (by simp only [List.length_drop]; omega)
            (by simp only [List.length_drop]; omega)]

theorem drainEor_eq (fn : String) (f : Nat) (buf : List Nat)
    (h : buf.length ≤ f) : drainEor fn f buf = drain fn buf :=
  drainEor_fuel_aux fn buf.length f buf.length buf le_rfl h le_rfl

/-- A buffer without the terminator drains to itself. -/
theorem drain_none {fn : String} {buf : List Nat}
    (h : findSub (lowerBytes buf) eorBytes = none) : drain fn buf = ([], buf) := by
  cases buf with
  | nil => rfl
  | cons a t =>
    simp only [drain, List.length_cons, drainEor]
    rw [h]

/-- One splitting step of the record loop. -/
theorem drain_step (fn : String) (buf : List Nat) (i : Nat)
    (hfind : findSub (lowerBytes buf) eorBytes = some i) :
    drain fn buf =
      ((parse_single_record fn (buf.take i)).toList ++
        (drain fn (buf.drop (i + 5))).1, (drain fn (buf.drop (i + 5))).2) := by
  have hlen := findSub_lower_bound hfind
  obtain ⟨m, hm⟩ : ∃ m, buf.length = m + 1 := ⟨buf.length - 1, by omega⟩
  unfold drain
  rw [hm]
  simp only [drainEor]
  rw [hfind]
  dsimp only
  rw [drainEor_eq fn m _ (by simp only [List.length_drop]; omega)]
  rfl

/-- The leftover of a full drain is terminator-free. -/
theorem drainEor_leftover (fn : String) :
    ∀ (fuel : Nat) (buf : List Nat), buf.length ≤ fuel →
    findSub (lowerBytes (drainEor fn fuel buf).2) eorBytes = none := by
  intro fuel
  induction fuel with
  | zero =>
    intro buf h
    have hb : buf = [] := List.eq_nil_of_length_eq_zero (by omega)
    subst hb
    rw [drainEor_nil]
    decide
  | succ f ih =>
    intro buf h
    cases hfind : findSub (lowerBytes buf) eorBytes with
    | none =>
      simp only [drainEor]
      rw [hfind]
      exact hfind
    | some i =>
      have hlen := findSub_lower_bound hfind
      simp only [drainEor]
      rw [hfind]
      dsimp only
      exact ih (buf.drop (i + 5)) (by simp only [List.length_drop]; omega)

theorem drain_leftover (fn : String) (buf : List Nat) :
    findSub (lowerBytes (drain fn buf).2) eorBytes = none :=
  drainEor_leftover fn buf.length buf le_rfl

/-- Draining chunked input agrees with draining the whole buffer: the
records of `A ++ B` are those of `A` followed by those of `A`'s leftover
joined to `B`. -/
theorem drain_append (fn : String) (A B : List Nat) :
    drain fn (A ++ B) =
      ((drain fn A).1 ++ (drain fn ((drain fn A).2 ++ B)).1,
       (drain fn ((drain fn A).2 ++ B)).2) := by
  suffices h : ∀ (n : Nat) (A B : List Nat), A.length ≤ n →
      drain fn (A ++ B) =
        ((drain fn A).1 ++ (drain fn ((drain fn A).2 ++ B)).1,
         (drain fn ((drain fn A).2 ++ B)).2) from h A.length A B le_rfl
  intro n
  induction n with
  | zero =>
    intro A B h0
    have hb : A = [] := List.eq_nil_of_length_eq_zero (by omega)
    subst hb
    have hA : drain fn ([] : List Nat) = ([], []) := rfl
    rw [hA]
    simp
  | succ m ih =>
    intro A B hn
    cases hfind : findSub (lowerBytes A) eorBytes with
    | none =>
      rw [drain_none hfind]
      simp
    | some i =>
      have hlen := findSub_lower_bound hfind
      have hfindAB : findSub (lowerBytes (A ++ B)) eorBytes = some i := by
        rw [lowerBytes_append]
        have := findSub_append_left (lowerBytes A) (lowerBytes B) eorBytes i hfind
          (by decide)
        simpa [lowerBytes_length] using this
      have htake : (A ++ B).take i = A.take i := by
        rw [List.take_append_eq_append_take, Nat.sub_eq_zero_of_le (by omega),
          List.take_zero, List.append_nil]
      have hdrop : (A ++ B).drop (i + 5) = A.drop (i + 5) ++ B := by
        rw [List.drop_append_eq_append_drop, Nat.sub_eq_zero_of_le (by omega),
          List.drop_zero]
      rw [drain_step fn (A ++ B) i hfindAB, drain_step fn A i hfind]
      rw [htake, hdrop]
      rw [ih (A.drop (i + 5)) B (by simp only [List.length_drop]; omega)]
      simp [List.append_assoc]



/-- One complete serialized tag block with its trailing space cannot
start a record terminator anywhere inside it. -/
theorem cleanSeg_block {nB vB : List Nat} (hne : nB ≠ [])
    (hn : ∀ b ∈ nB, wfNameByte b = true)
    (hv : findSub (lowerBytes vB) eorBytes = none) :
    CleanSeg (lowerBytes (rawTagBlock nB vB ++ [32])) := by
  have hshape : lowerBytes (rawTagBlock nB vB ++ [32]) =
      (60 :: lowerBytes nB ++ [58]) ++
        (lowerBytes (natDigits vB.length) ++ ([62] ++ (lowerBytes vB ++ [32]))) := by
    simp only [rawTagBlock, lowerBytes, List.map_append, List.map_cons, List.map_nil,
      List.cons_append, List.append_assoc]
    norm_num [lowerByte]
  rw [hshape]
  have hdig : ∀ b ∈ lowerBytes (natDigits vB.length), b ≠ 60 := by
    intro b hb
    simp only [lowerBytes, List.mem_map] at hb
    obtain ⟨a, ha, rfl⟩ := hb
    unfold natDigits at ha
    have := natDigitsAux_digits (vB.length + 1) vB.length a ha
    unfold lowerByte
    split <;> omega
  have hbr : ∀ b ∈ ([62] : List Nat), b ≠ 60 := by
    intro b hb
    simp only [List.mem_singleton] at hb
    omega
  exact CleanSeg_append (cleanSeg_tagHead hne hn)
    (CleanSeg_append (CleanSeg_no60 hdig)
      (CleanSeg_append (CleanSeg_no60 hbr) (cleanSeg_stop hv)))

/-- The serialized blocks of well-formed tags cannot start a terminator. -/
theorem cleanSeg_blocks :
    ∀ (tags : List (String × String)),
    (∀ p ∈ tags, wfName p.1 ∧ wfValue p.2) →
    CleanSeg (lowerBytes (rawBlocksSp
      (tags.map (fun p => (strBytes p.1, strBytes p.2))))) := by
  intro tags
  induction tags with
  | nil =>
    intro _ T j hj
    simp [rawBlocksSp, lowerBytes] at hj
  | cons p ts ih =>
    intro hwf
    obtain ⟨n, v⟩ := p
    have hshape : rawBlocksSp (((n, v) :: ts).map (fun p => (strBytes p.1, strBytes p.2))) =
        (rawTagBlock (strBytes n) (strBytes v) ++ [32]) ++
          rawBlocksSp (ts.map (fun p => (strBytes p.1, strBytes p.2))) := by
      simp [rawBlocksSp]
    rw [hshape, lowerBytes_append]
    apply CleanSeg_append
    · apply cleanSeg_block
      · exact (strBytes_wfNameBytes n (hwf (n, v) (List.mem_cons_self _ _)).1).1
      · intro b hb
        simp only [strBytes, List.mem_map] at hb
        obtain ⟨c, hc, rfl⟩ := hb
        have := (hwf (n, v) (List.mem_cons_self _ _)).1.2.2
        simp only [List.all_eq_true] at this
        exact this c hc
      · have hv := (hwf (n, v) (List.mem_cons_self _ _)).2.2
        unfold hasSub at hv
        have hv2 : (findSub (lowerBytes (strBytes v)) eorBytes).isSome = false := hv
        exact Option.not_isSome_iff_eq_none.mp (by simp [hv2])
    · exact ih (fun q hq => hwf q (List.mem_cons_of_mem _ hq))

/-- The leading line break plus the serialized tag blocks of a record
cannot start a terminator. -/
theorem cleanSeg_record (tags : List (String × String))
    (hwf : ∀ p ∈ tags, wfName p.1 ∧ wfValue p.2) :
    CleanSeg (lowerBytes ([13, 10] ++
      rawBlocksSp (tags.map (fun p => (strBytes p.1, strBytes p.2))))) := by
  rw [lowerBytes_append]
  apply CleanSeg_append
  · apply CleanSeg_no60
    intro b hb
    rw [show lowerBytes [13, 10] = [13, 10] from by decide] at hb
    simp at hb
    omega
  · exact cleanSeg_blocks tags hwf

/-- After the header is found, the chunked loop equals one full drain of
everything left, followed by the final flush. -/
theorem streamLoop_drained (fn : String) :
    ∀ (fuel : Nat) (remaining buffer : List Nat),
    remaining.length < fuel →
    findSub (lowerBytes buffer) eorBytes = none →
    streamLoop fn chunkSize fuel remaining buffer true =
      (drain fn (buffer ++ remaining)).1 ++
        (if (drain fn (buffer ++ remaining)).2.all isSpaceByte then []
         else (parse_single_record fn (drain fn (buffer ++ remaining)).2).toList) := by
  intro fuel
  induction fuel with
  | zero => intro remaining buffer h _; omega
  | succ f ih =>
    intro remaining buffer hlen hclean
    by_cases hempty : remaining.take chunkSize = []
    · have hrem : remaining = [] := by
        rcases List.take_eq_nil_iff.mp hempty with h | h
        · exact absurd h (by simp [chunkSize])
        · exact h
      subst hrem
      rw [List.append_nil, drain_none hclean]
      simp [streamLoop]
    · have hremne : remaining ≠ [] := fun hc => by
        subst hc
        simp at hempty
      simp only [streamLoop]
      rw [if_neg (by simpa using hempty)]
      rw [if_true]
      have hfold : drainEor fn (buffer ++ remaining.take chunkSize).length
            (buffer ++ remaining.take chunkSize) =
          drain fn (buffer ++ remaining.take chunkSize) := rfl
      rw [hfold]
      rw [ih (remaining.drop chunkSize) ((drain fn (buffer ++ remaining.take chunkSize)).2)
        ?hfuel (drain_leftover fn _)]
      case hfuel =>
        have h1 : 1 ≤ chunkSize := by simp [chunkSize]
        have h2 : 1 ≤ remaining.length := List.length_pos.mpr hremne
        simp only [List.length_drop]
        omega
      have hsplit : buffer ++ remaining =
          (buffer ++ remaining.take chunkSize) ++ remaining.drop chunkSize := by
        rw [List.append_assoc, List.take_append_drop]
      rw [hsplit,
        drain_append fn (buffer ++ remaining.take chunkSize) (remaining.drop chunkSize)]
      simp [List.append_assoc]

/-- Draining the serialized body record by record. -/
theorem drain_body (fn2 : String) :
    ∀ (recs : List Record), (∀ r ∈ recs, wfRecord r) →
    drain fn2 ([13, 10] ++ bodyBytes recs) =
      (recs.map (fun r => ("_SOURCE_FILE", fn2) :: r.drop 1), [13, 10]) := by
  intro recs
  induction recs with
  | nil =>
    intro _
    have hb : bodyBytes [] = [] := rfl
    rw [hb, List.append_nil]
    rw [drain_none (by decide)]
    simp
  | cons r rs ih =>
    intro h
    have hr := h r (List.mem_cons_self _ _)
    obtain ⟨p, tags, rfl⟩ : ∃ p tags, r = p :: tags := by
      cases r with
      | nil => exact absurd hr (by simp [wfRecord])
      | cons p tags => exact ⟨p, tags, rfl⟩
    obtain ⟨k, v0⟩ := p
    obtain ⟨hk, htne, hwft, hnodup⟩ := hr
    subst hk
    set B := rawBlocksSp (tags.map (fun q => (strBytes q.1, strBytes q.2))) with hBdef
    have hbody : bodyBytes ((("_SOURCE_FILE", v0) :: tags) :: rs) =
        (B ++ [60, 69, 79, 82, 62, 13, 10]) ++ bodyBytes rs := by
      simp only [bodyBytes, List.map_cons, List.flatten_cons]
      rw [line_bytes v0 tags hwft]
    have hsh : [13, 10] ++ bodyBytes ((("_SOURCE_FILE", v0) :: tags) :: rs) =
        ((([13, 10] ++ B) ++ [60, 69, 79, 82, 62]) ++ ([13, 10] ++ bodyBytes rs)) := by
      rw [hbody]
      simp [List.append_assoc]
    rw [hsh]
    have hclean : CleanSeg (lowerBytes ([13, 10] ++ B)) := cleanSeg_record tags hwft
    have hfind := findSub_eor_at ([13, 10] ++ bodyBytes rs) hclean
    rw [drain_step fn2 _ _ hfind]
    have htk : ((([13, 10] ++ B) ++ [60, 69, 79, 82, 62]) ++
          ([13, 10] ++ bodyBytes rs)).take (([13, 10] ++ B).length) =
        [13, 10] ++ B := by
      rw [List.append_assoc, List.take_left]
    have hdp : ((([13, 10] ++ B) ++ [60, 69, 79, 82, 62]) ++
          ([13, 10] ++ bodyBytes rs)).drop (([13, 10] ++ B).length + 5) =
        [13, 10] ++ bodyBytes rs := by
      have hlenE : (([13, 10] ++ B) ++ [60, 69, 79, 82, 62]).length
          = ([13, 10] ++ B).length + 5 := by
        rw [List.length_append]
        rfl
      rw [← hlenE, List.drop_left]
    rw [htk, hdp]
    rw [hBdef, parse_record_span fn2 tags htne hwft hnodup]
    rw [ih (fun q hq => h q (List.mem_cons_of_mem _ hq))]
    simp only [Option.toList_some, List.map_cons, List.singleton_append,
      List.drop_succ_cons, List.drop_zero]

set_option maxRecDepth 10000 in
set_option maxHeartbeats 1000000 in
/-- First chunk of a headed stream: the header terminator is found in the
first chunk, everything past it is drained, and the loop continues with
the header marked found. -/
theorem streamLoop_header_step (fn : String) (f : Nat) (remaining : List Nat)
    (hne : remaining.take chunkSize ≠ []) (i : Nat)
    (hfind : findSub (lowerBytes (remaining.take chunkSize)) eohBytes = some i) :
    streamLoop fn chunkSize (f + 1) remaining [] false =
      (drain fn ((remaining.take chunkSize).drop (i + 5))).1 ++
        streamLoop fn chunkSize f (remaining.drop chunkSize)
          (drain fn ((remaining.take chunkSize).drop (i + 5))).2 true := by
  simp only [streamLoop]
  rw [if_neg (by simpa using hne)]
  simp only [List.nil_append]
  rw [hfind]
  dsimp only
  rfl

set_option maxRecDepth 10000 in
set_option maxHeartbeats 1000000 in
/-- C1 (amended).  Well-formed records round-trip. -/
theorem c1_round_trip (fn2 : String) (recs : List Record)
    (hwf : ∀ r ∈ recs, wfRecord r) :
    stream_records fn2 (write_adif_file recs) =
      recs.map (fun r => ("_SOURCE_FILE", fn2) :: r.drop 1) := by
  have hH99 : (encodeStr adifHeader).length = 99 := by decide
  have hfile : write_adif_file recs = encodeStr adifHeader ++ bodyBytes recs := by
    unfold write_adif_file bodyBytes
    rfl
  unfold stream_records
  rw [hfile]
  have hne : (encodeStr adifHeader ++ bodyBytes recs).take chunkSize ≠ [] := by
    intro hc
    rcases List.take_eq_nil_iff.mp hc with h | h
    · exact absurd h (by decide)
    · have := congrArg List.length h
      simp only [List.length_append, List.length_nil, hH99] at this
      omega
  have htake : (encodeStr adifHeader ++ bodyBytes recs).take chunkSize =
      encodeStr adifHeader ++ (bodyBytes recs).take (chunkSize - 99) := by
    rw [List.take_append_eq_append_take,
      List.take_of_length_le (by rw [hH99]; decide), hH99]
  have hdrop : (encodeStr adifHeader ++ bodyBytes recs).drop chunkSize =
      (bodyBytes recs).drop (chunkSize - 99) := by
    rw [List.drop_append_eq_append_drop,
      List.drop_eq_nil_of_le (by rw [hH99]; decide), hH99, List.nil_append]
  have hfind92 : findSub (lowerBytes ((encodeStr adifHeader ++
      bodyBytes recs).take chunkSize)) eohBytes = some 92 := by
    rw [htake, lowerBytes_append]
    exact findSub_append_left _ _ _ 92 (by decide) (by decide)
  rw [streamLoop_header_step fn2 ((encodeStr adifHeader ++ bodyBytes recs).length)
    (encodeStr adifHeader ++ bodyBytes recs) hne 92 hfind92]
  have h97 : ((encodeStr adifHeader ++ bodyBytes recs).take chunkSize).drop (92 + 5) =
      [13, 10] ++ (bodyBytes recs).take (chunkSize - 99) := by
    rw [htake, List.drop_append_eq_append_drop, hH99]
    rw [show (92 + 5 : Nat) = 97 from rfl]
    rw [show (97 - 99 : Nat) = 0 from rfl, List.drop_zero]
    rw [show (encodeStr adifHeader).drop 97 = [13, 10] from by decide]
  rw [h97, hdrop]
  rw [streamLoop_drained fn2 ((encodeStr adifHeader ++ bodyBytes recs).length)
    ((bodyBytes recs).drop (chunkSize - 99))
    ((drain fn2 ([13, 10] ++ (bodyBytes recs).take (chunkSize - 99))).2)
    (by simp only [List.length_drop, List.length_append, hH99]; omega)
    (drain_leftover fn2 _)]
  have hkey : drain fn2 (([13, 10] ++ (bodyBytes recs).take (chunkSize - 99)) ++
      (bodyBytes recs).drop (chunkSize - 99)) =
      (recs.map (fun r => ("_SOURCE_FILE", fn2) :: r.drop 1), [13, 10]) := by
    rw [List.append_assoc, List.take_append_drop]
    exact drain_body fn2 recs hwf
  have hda := drain_append fn2 ([13, 10] ++ (bodyBytes recs).take (chunkSize - 99))
    ((bodyBytes recs).drop (chunkSize - 99))
  rw [hkey] at hda
  have h1 := congrArg Prod.fst hda
  have h2 := congrArg Prod.snd hda
  dsimp only at h1 h2
  rw [← h2]
  rw [if_pos (by decide)]
  rw [List.append_nil]
  exact h1.symm


end LogMerge

namespace LogMerge

/-- Witness for C1: two concrete well-formed records round-trip through
`write_adif_file` and `stream_records`, keeping every tag value and
reassigning the provenance entry to the new source name. -/
theorem c1_round_trip_witness :
    (∀ r ∈ ([[("_SOURCE_FILE", "a.adi"), ("CALL", "BI4XYZ"), ("GRIDSQUARE", "PM95UW")],
        [("_SOURCE_FILE", "b.adi"), ("CALL", "W1AW")]] : List Record), wfRecord r) ∧
    stream_records "m.adi" (write_adif_file
        [[("_SOURCE_FILE", "a.adi"), ("CALL", "BI4XYZ"), ("GRIDSQUARE", "PM95UW")],
         [("_SOURCE_FILE", "b.adi"), ("CALL", "W1AW")]]) =
      [[("_SOURCE_FILE", "m.adi"), ("CALL", "BI4XYZ"), ("GRIDSQUARE", "PM95UW")],
       [("_SOURCE_FILE", "m.adi"), ("CALL", "W1AW")]] :=
  ⟨by decide, (c1_round_trip "m.adi" _ (by decide)).trans (by decide)⟩

/-- C1 counterexample: a record accepted from valid tag-length-value input
whose value is the multi-byte character `U+9686` (UTF-8 `E9 9A 86`) does
not survive the round trip: the writer emits the value in `gb18030`
(`C2 A1`), and the re-parsing decoder tries UTF-8 first, which accepts
those bytes as `U+00A1`, so the value comes back as a different string. -/
theorem c1_value_not_preserved :
    stream_records "src.adi"
        (strBytes "x<EOH><NAME:3>" ++ [233, 154, 134] ++ strBytes "<eor>") =
      [[("_SOURCE_FILE", "src.adi"), ("NAME", String.mk [Char.ofNat 38534])]] ∧
    stream_records "merged.adi"
        (write_adif_file
          [[("_SOURCE_FILE", "src.adi"), ("NAME", String.mk [Char.ofNat 38534])]]) =
      [[("_SOURCE_FILE", "merged.adi"), ("NAME", String.mk [Char.ofNat 161])]] ∧
    (String.mk [Char.ofNat 161] : String) ≠ String.mk [Char.ofNat 38534] :=
  ⟨by decide, by decide, by decide⟩

end LogMerge
